import Mathlib

/-!
# libtailscale: the Android interface-descriptor parser

A shallow embedding of `getInterfaces` and `TsnetRegisterAndroidInterface`
(`tailscale_android.go`) together with the Go standard-library routines they
call (`strings.Split`, `strings.TrimSpace`, `strings.Trim`, `fmt.Sscanf`,
`netip.ParsePrefix`, `filepath.Join`, `os.MkdirAll`, `os.Setenv`), followed by
theorems about them. The standard library is the one of Go 1.22, the release
line the `tailscale.com/net/netmon` dependency builds with.

Conventions of the embedding:

* a Go `string` that holds valid UTF-8 (what `jni.GoString` produces) is a
  `List Char`; every byte-level test the code makes is against an ASCII byte,
  so scanning code points and scanning bytes agree;
* a Go slice is `Slice α = Option (List α)`, `none` being the `nil` slice;
* a Go `error` result is an `Option`, `none` being the `nil` error;
* a library routine that can fail returns `Option`, `none` standing for
  "returned a non-nil error" (the program never inspects which error it was);
* `int` is the 64-bit `int` of the arm64 Android target (`intBits`): the
  scanner rejects integers outside `[-2^63, 2^63)`, so values are mathematical
  integers in that range;
* `fmt`'s scanner stops reading after `2^30` code points (`hugeWid`); inputs
  are taken to be shorter, and the limit is not modelled.
-/

namespace LibTailscale

/-! ## Go slices -/

/-- A Go slice value; `none` is the `nil` slice. -/
abbrev Slice (α : Type) := Option (List α)

/-- The elements of a slice; the `nil` slice has none. -/
def Slice.elems {α : Type} : Slice α → List α
  | none => []
  | some l => l

/-- The Go builtin `append(s, x)` with one element: the result is never `nil`. -/
def Slice.append {α : Type} (s : Slice α) (x : α) : Slice α :=
  some (s.elems ++ [x])

/-! ## package strings -/

/-- The Go function `strings.Split(s, sep)` for a one-character separator:
the pieces of `s` between successive occurrences of `sep`; always at least one piece. -/
def Split (sep : Char) : List Char → List (List Char)
  | [] => [[]]
  | c :: cs =>
    if c = sep then [] :: Split sep cs
    else
      match Split sep cs with
      | [] => [[c]]
      | h :: t => (c :: h) :: t

/-- The Go predicate `unicode.IsSpace`, the Unicode White_Space property; the table
`space` of `fmt/scan.go` lists the same ranges. -/
def isSpace (r : Char) : Bool :=
  let n := r.toNat
  (0x0009 ≤ n && n ≤ 0x000d) || n == 0x0020 || n == 0x0085 || n == 0x00a0 ||
  n == 0x1680 || (0x2000 ≤ n && n ≤ 0x200a) || (0x2028 ≤ n && n ≤ 0x2029) ||
  n == 0x202f || n == 0x205f || n == 0x3000

/-- Remove the longest prefix and the longest suffix of `s` whose characters satisfy `p`
(the Go function `strings.TrimFunc`). -/
def trimBoth (p : Char → Bool) (s : List Char) : List Char :=
  ((s.dropWhile p).reverse.dropWhile p).reverse

/-- The Go function `strings.TrimSpace`. -/
def TrimSpace (s : List Char) : List Char := trimBoth isSpace s

/-- The Go function `strings.Trim(s, cutset)`. -/
def Trim (s : List Char) (cutset : List Char) : List Char :=
  trimBoth (fun c => cutset.contains c) s

/-! ## package fmt: `Sscanf` with the format `"%s %d %d %t %t %t %t %t"`

The scanner state is the unread input. `none` means the scan stopped with an
error (the `scanError` or `io.EOF` panics that `errorHandler` turns into the
returned `err`). -/

/-- The method `(*ss).SkipSpace` with `nlIsSpace = false`: skip white space; a newline is
an error. -/
def SkipSpace : List Char → Option (List Char)
  | [] => some []
  | r :: rest =>
    if r = '\r' ∧ rest.head? = some '\n' then SkipSpace rest
    else if r = '\n' then none
    else if !isSpace r then some (r :: rest)
    else SkipSpace rest

/-- The method `(*ss).notEOF`: there must be input left. -/
def notEOF (s : List Char) : Option Unit :=
  if s = [] then none else some ()

/-- The function `notSpace` of `fmt/scan.go`. -/
def notSpace (r : Char) : Bool := !isSpace r

/-- The method `(*ss).convertString` for the verb `%s`: skip space, require input, then
`token(true, notSpace)`, the next run of non-space characters. -/
def convertString (s : List Char) : Option (List Char × List Char) := do
  let s ← SkipSpace s
  notEOF s
  let s ← SkipSpace s
  some (s.takeWhile notSpace, s.dropWhile notSpace)

/-- Membership in the constant `decimalDigits = "0123456789"`. -/
def isDecimalDigit (r : Char) : Bool := '0'.toNat ≤ r.toNat && r.toNat ≤ '9'.toNat

/-- Value of a string of decimal digits, most significant first. -/
def digitsValue (s : List Char) : Nat :=
  s.foldl (fun n c => n * 10 + (c.toNat - '0'.toNat)) 0

/-- The function `strconv.ParseUint(s, 10, 64)`: syntax error on an empty string or a
non-digit, range error from `2^64` on. -/
def ParseUint (s : List Char) : Option Nat :=
  if s = [] then none
  else if s.all isDecimalDigit then
    if digitsValue s < 2 ^ 64 then some (digitsValue s) else none
  else none

/-- The function `strconv.ParseInt(s, 10, 64)`: optional sign, then `ParseUint`, then the
signed range check. -/
def ParseInt (s : List Char) : Option Int :=
  if s = [] then none
  else
    let neg := s.head? = some '-'
    let s0 := if s.head? = some '+' ∨ s.head? = some '-' then s.tail else s
    match ParseUint s0 with
    | none => none
    | some un =>
      if ¬ neg ∧ 2 ^ 63 ≤ un then none
      else if neg ∧ 2 ^ 63 < un then none
      else some (if neg then -(un : Int) else (un : Int))

/-- The constant `intBits` of `fmt/scan.go`, the size of `int`. -/
def intBits : Nat := 64

/-- The method `(*ss).scanInt` for the verb `%d` and `bitSize = intBits`: skip space,
require input, accept one optional sign, `scanNumber` (at least one decimal digit, then
all that follow), convert the token with `ParseInt`, and reject a value that does not fit
`bitSize` bits ("integer overflow on token"). -/
def scanInt (s : List Char) : Option (Int × List Char) := do
  let s ← SkipSpace s
  notEOF s
  let (sign, s) :=
    match s with
    | r :: rest => if r = '+' ∨ r = '-' then ([r], rest) else ([], r :: rest)
    | [] => ([], [])
  notEOF s
  let digits := s.takeWhile isDecimalDigit
  if digits = [] then none
  else
    let i ← ParseInt (sign ++ digits)
    if ¬ (-(2 : Int) ^ (intBits - 1) ≤ i ∧ i < 2 ^ (intBits - 1)) then none
    else some (i, s.dropWhile isDecimalDigit)

/-- The method `(*ss).accept`: consume the next character when it is one of `ok`. -/
def accept (ok : List Char) (s : List Char) : Bool × List Char :=
  match s with
  | [] => (false, [])
  | r :: rest => if ok.contains r then (true, rest) else (false, r :: rest)

/-- The method `(*ss).scanBool` for the verb `%t`: skip space, require input, then decide
on the first character; any first character other than `0 1 t T f F` is consumed and
reads as `false` without error. -/
def scanBool (s : List Char) : Option (Bool × List Char) := do
  let s ← SkipSpace s
  notEOF s
  match s with
  | [] => some (false, [])
  | r :: rest =>
    if r = '0' then some (false, rest)
    else if r = '1' then some (true, rest)
    else if r = 't' ∨ r = 'T' then
      let (a1, s1) := accept ['r', 'R'] rest
      if a1 then
        let (a2, s2) := accept ['u', 'U'] s1
        if !a2 then none
        else
          let (a3, s3) := accept ['e', 'E'] s2
          if !a3 then none else some (true, s3)
      else some (true, s1)
    else if r = 'f' ∨ r = 'F' then
      let (a1, s1) := accept ['a', 'A'] rest
      if a1 then
        let (a2, s2) := accept ['l', 'L'] s1
        if !a2 then none
        else
          let (a3, s3) := accept ['s', 'S'] s2
          if !a3 then none
          else
            let (a4, s4) := accept ['e', 'E'] s3
            if !a4 then none else some (false, s4)
      else some (false, s1)
    else some (false, rest)

/-- The method `(*ss).advance` on one blank of the format that is followed by a verb: the
input must be at its end or continue with white space other than a newline, and the
whole run of such white space is consumed. -/
def advanceSpace (s : List Char) : Option (List Char) :=
  match s with
  | [] => some []
  | c :: rest =>
    if !isSpace c then none
    else if c = '\n' then none
    else some ((c :: rest).dropWhile (fun r => isSpace r && r != '\n'))

/-- The eight values `Sscanf` stores through its pointer arguments. -/
structure Header where
  name : List Char
  index : Int
  mtu : Int
  up : Bool
  broadcast : Bool
  loopback : Bool
  pointToPoint : Bool
  multicast : Bool
deriving DecidableEq

/-- One verb of `doScanf` followed by a blank of the format: `SkipSpace` (the verb is not
`%c`), then `scanOne`, then `advance` over the blank. -/
def verbThenSpace {α : Type} (scanOne : List Char → Option (α × List Char)) (s : List Char) :
    Option (α × List Char) :=
  match SkipSpace s with
  | none => none
  | some s1 =>
    match scanOne s1 with
    | none => none
    | some (a, s2) =>
      match advanceSpace s2 with
      | none => none
      | some s3 => some (a, s3)

/-- The last verb of the format: `SkipSpace`, then `scanOne`; the input left over is not
looked at. -/
def lastVerb {α : Type} (scanOne : List Char → Option (α × List Char)) (s : List Char) :
    Option α :=
  match SkipSpace s with
  | none => none
  | some s1 => (scanOne s1).map Prod.fst

/-- The verbs `%t %t %t %t %t` that end the format. -/
def scanFlags (s : List Char) : Option (Bool × Bool × Bool × Bool × Bool) :=
  (verbThenSpace scanBool s).bind fun r1 =>
  (verbThenSpace scanBool r1.2).bind fun r2 =>
  (verbThenSpace scanBool r2.2).bind fun r3 =>
  (verbThenSpace scanBool r3.2).bind fun r4 =>
  (lastVerb scanBool r4.2).map fun b5 => (r1.1, r2.1, r3.1, r4.1, b5)

/-- The call `fmt.Sscanf(str, "%s %d %d %t %t %t %t %t", &name, ..., &multicast)`:
`none` when it returns an error. -/
def Sscanf (str : List Char) : Option Header :=
  (verbThenSpace convertString str).bind fun r1 =>
  (verbThenSpace scanInt r1.2).bind fun r2 =>
  (verbThenSpace scanInt r2.2).bind fun r3 =>
  (scanFlags r3.2).map fun f =>
    ⟨r1.1, r2.1, r3.1, f.1, f.2.1, f.2.2.1, f.2.2.2.1, f.2.2.2.2⟩

/-! ## package net/netip

An `Addr` is the 16 bytes of its 128-bit `addr` field (big-endian; an IPv4 address is stored
IPv4-mapped) together with the tag `z`: `z0` for the zero `Addr`, `z4` for IPv4, and
`z6 zone` for IPv6, where `z6 []` is `z6noz`. -/

/-- The field `z` of `netip.Addr`. -/
inductive AddrZ where
  | z0
  | z4
  | z6 (zone : List Char)
deriving DecidableEq

/-- The type `netip.Addr`. -/
structure Addr where
  bytes : List Nat
  z : AddrZ
deriving DecidableEq

/-- The zero value `Addr{}`. -/
def Addr.zero : Addr := ⟨List.replicate 16 0, AddrZ.z0⟩

/-- The function `netip.AddrFrom4`. -/
def AddrFrom4 (fields : List Nat) : Addr :=
  ⟨List.replicate 10 0 ++ [0xff, 0xff] ++ fields, AddrZ.z4⟩

/-- The function `netip.AddrFrom16`. -/
def AddrFrom16 (ip : List Nat) : Addr := ⟨ip, AddrZ.z6 []⟩

/-- The method `Addr.Is4`. -/
def Addr.Is4 (ip : Addr) : Bool := ip.z = AddrZ.z4

/-- The method `Addr.Is6`. -/
def Addr.Is6 (ip : Addr) : Bool := ip.z ≠ AddrZ.z0 ∧ ip.z ≠ AddrZ.z4

/-- The method `Addr.Zone`. -/
def Addr.Zone (ip : Addr) : List Char :=
  match ip.z with
  | AddrZ.z6 zone => zone
  | _ => []

/-- The method `Addr.WithZone`. -/
def Addr.WithZone (ip : Addr) (zone : List Char) : Addr :=
  if !ip.Is6 then ip else { ip with z := AddrZ.z6 zone }

/-- The method `Addr.withoutZone`. -/
def Addr.withoutZone (ip : Addr) : Addr :=
  if !ip.Is6 then ip else { ip with z := AddrZ.z6 [] }

/-- The method `Addr.As4`, called on IPv4 addresses only: the low four bytes. -/
def Addr.As4 (ip : Addr) : List Nat := ip.bytes.drop 12

/-- The method `Addr.As16`; all zeroes for the zero `Addr`. -/
def Addr.As16 (ip : Addr) : List Nat := ip.bytes

/-- The loop of `parseIPv4`. `prev` is the character before the current one (`none` at
`i == 0`), `fields` holds the `pos` octets stored so far, `val` and `digLen` are the
value and digit count of the current octet. -/
def parseIPv4Loop : Option Char → List Nat → Nat → Nat → List Char → Option (List Nat)
  | _, fields, val, _, [] =>
    if fields.length < 3 then none else some (fields ++ [val])
  | prev, fields, val, digLen, c :: rest =>
    if isDecimalDigit c then
      if digLen = 1 ∧ val = 0 then none
      else if val * 10 + (c.toNat - '0'.toNat) > 255 then none
      else parseIPv4Loop (some c) fields (val * 10 + (c.toNat - '0'.toNat)) (digLen + 1) rest
    else if c = '.' then
      if prev = none ∨ rest = [] ∨ prev = some '.' then none
      else if fields.length = 3 then none
      else parseIPv4Loop (some c) (fields ++ [val]) 0 0 rest
    else none

/-- The function `parseIPv4`: the four octets, or `none` on error. -/
def parseIPv4 (s : List Char) : Option (List Nat) :=
  parseIPv4Loop none [] 0 0 s

/-- Value of a hexadecimal digit. -/
def hexVal (c : Char) : Option Nat :=
  if '0'.toNat ≤ c.toNat ∧ c.toNat ≤ '9'.toNat then some (c.toNat - '0'.toNat)
  else if 'a'.toNat ≤ c.toNat ∧ c.toNat ≤ 'f'.toNat then some (c.toNat - 'a'.toNat + 10)
  else if 'A'.toNat ≤ c.toNat ∧ c.toNat ≤ 'F'.toNat then some (c.toNat - 'A'.toNat + 10)
  else none

/-- The inner loop of `parseIPv6` reading one hexadecimal field: the accumulated value,
the number `off` of digits read and the rest of the input; `none` when the value
exceeds 16 bits. -/
def hexField : Nat → Nat → List Char → Option (Nat × Nat × List Char)
  | acc, off, [] => some (acc, off, [])
  | acc, off, c :: rest =>
    match hexVal c with
    | none => some (acc, off, c :: rest)
    | some v =>
      if acc * 16 + v > 0xffff then none
      else hexField (acc * 16 + v) (off + 1) rest

/-- The main loop `for i < 16` of `parseIPv6`. `ip` holds the `i` bytes written so far.
Every round that continues adds two bytes, so the eight rounds of `fuel` the caller
gives are never exhausted before `i` reaches 16. The result is the state after the loop:
the bytes, the position of the ellipsis and the unread input. -/
def parseIPv6Loop : Nat → List Nat → Option Nat → List Char →
    Option (List Nat × Option Nat × List Char)
  | 0, ip, ellipsis, s => some (ip, ellipsis, s)
  | fuel + 1, ip, ellipsis, s =>
    if ¬ ip.length < 16 then some (ip, ellipsis, s)
    else
      match hexField 0 0 s with
      | none => none
      | some (acc, off, s1) =>
        if off = 0 then none
        else if s1.head? = some '.' then
          if ellipsis = none ∧ ip.length ≠ 12 then none
          else if ip.length + 4 > 16 then none
          else
            match parseIPv4 s with
            | none => none
            | some ip4 => some (ip ++ ip4, ellipsis, [])
        else
          let ip := ip ++ [acc / 256, acc % 256]
          match s1 with
          | [] => some (ip, ellipsis, [])
          | c :: s2 =>
            if c ≠ ':' then none
            else
              match s2 with
              | [] => none
              | c2 :: s3 =>
                if c2 = ':' then
                  if ellipsis ≠ none then none
                  else if s3 = [] then some (ip, some ip.length, [])
                  else parseIPv6Loop fuel ip (some ip.length) s3
                else parseIPv6Loop fuel ip ellipsis s2

/-- The function `parseIPv6`. -/
def parseIPv6 (s0 : List Char) : Option Addr :=
  let hasZone := s0.contains '%'
  let s := s0.takeWhile (fun c => c ≠ '%')
  let zone := (s0.dropWhile (fun c => c ≠ '%')).tail
  if hasZone ∧ zone = [] then none
  else
    let leading := s.take 2 = [':', ':']
    let ellipsis : Option Nat := if leading then some 0 else none
    let s := if leading then s.drop 2 else s
    if leading ∧ s = [] then some ((AddrFrom16 (List.replicate 16 0)).WithZone zone)
    else
      match parseIPv6Loop 8 [] ellipsis s with
      | none => none
      | some (ip, ellipsis, s) =>
        if s ≠ [] then none
        else if ip.length < 16 then
          match ellipsis with
          | none => none
          | some e =>
            some ((AddrFrom16 (ip.take e ++ List.replicate (16 - ip.length) 0 ++ ip.drop e)).WithZone
              zone)
        else if ellipsis ≠ none then none
        else some ((AddrFrom16 ip).WithZone zone)

/-- The function `netip.ParseAddr`: dispatch on the first of `.`, `:` and `%`. -/
def ParseAddr (s : List Char) : Option Addr :=
  match s.find? (fun c => c = '.' ∨ c = ':' ∨ c = '%') with
  | none => none
  | some c =>
    if c = '.' then (parseIPv4 s).map AddrFrom4
    else if c = ':' then parseIPv6 s
    else none

/-- The type `netip.Prefix`; `bitsPlusOne = 0` marks an invalid prefix. -/
structure Prefix where
  ip : Addr
  bitsPlusOne : Nat
deriving DecidableEq

/-- The zero value `Prefix{}`. -/
def Prefix.zero : Prefix := ⟨Addr.zero, 0⟩

/-- The method `Prefix.Addr`. -/
def Prefix.Addr (p : Prefix) : Addr := p.ip

/-- The method `Addr.BitLen`. -/
def Addr.BitLen (ip : Addr) : Nat :=
  match ip.z with
  | AddrZ.z0 => 0
  | AddrZ.z4 => 32
  | AddrZ.z6 _ => 128

/-- The function `netip.PrefixFrom`: the zone of the address is dropped. -/
def PrefixFrom (ip : Addr) (bits : Int) : Prefix :=
  ⟨ip.withoutZone,
    if ip.z ≠ AddrZ.z0 ∧ 0 ≤ bits ∧ bits ≤ ip.BitLen then bits.toNat + 1 else 0⟩

/-- Split `s` at its last occurrence of `sep` (`LastIndexByte`): the text before and the
text after, or `none` when `sep` does not occur. -/
def cutLast (sep : Char) : List Char → Option (List Char × List Char)
  | [] => none
  | c :: cs =>
    match cutLast sep cs with
    | some (a, b) => some (c :: a, b)
    | none => if c = sep then some ([], cs) else none

/-- The function `netip.ParsePrefix`: `none` when it returns an error. An address that
carries a zone is rejected ("IPv6 zones cannot be present in a prefix"); the bits must
be a plain decimal number without sign or leading zero, at most the bit length of the
address. -/
def ParsePrefix (s : List Char) : Option Prefix :=
  match cutLast '/' s with
  | none => none
  | some (addrStr, bitsStr) =>
    match ParseAddr addrStr with
    | none => none
    | some ip =>
      if ip.Is6 ∧ ip.z ≠ AddrZ.z6 [] then none
      else if 1 < bitsStr.length ∧ ¬ (bitsStr.head?.any fun c => '1'.toNat ≤ c.toNat ∧ c.toNat ≤ '9'.toNat)
      then none
      else
        match ParseInt bitsStr with
        | none => none
        | some bits =>
          if bits < 0 ∨ bits > (if ip.Is6 then 128 else 32) then none
          else some (PrefixFrom ip bits)

/-! ## package net and package netmon -/

/-- The constant `net.FlagUp`. -/
def FlagUp : Nat := 1
/-- The constant `net.FlagBroadcast`. -/
def FlagBroadcast : Nat := 2
/-- The constant `net.FlagLoopback`. -/
def FlagLoopback : Nat := 4
/-- The constant `net.FlagPointToPoint`. -/
def FlagPointToPoint : Nat := 8
/-- The constant `net.FlagMulticast`. -/
def FlagMulticast : Nat := 16

/-- The type `net.IPAddr`: the bytes of the address and its zone. -/
structure IPAddr where
  IP : List Nat
  Zone : List Char
deriving DecidableEq

/-- The type `netmon.Interface` with its embedded `net.Interface`; the fields the parser
never touches (`HardwareAddr`, `Desc`) are left out. -/
structure Interface where
  Name : List Char
  Index : Int
  MTU : Int
  Flags : Nat
  AltAddrs : Slice IPAddr
deriving DecidableEq

/-! ## `getInterfaces` -/

/-- Body of the loop over address tokens (source lines 86-100). The address bytes are
computed from `pfx` before the error is looked at; on error `pfx` is the zero `Prefix`,
whose address is not IPv4, so `As16` is taken and nothing is appended. -/
def addrStep (newIf : Interface) (addr : List Char) : Interface :=
  let r := ParsePrefix addr
  let pfx := r.getD Prefix.zero
  let ip := if pfx.Addr.Is4 then pfx.Addr.As4 else pfx.Addr.As16
  if r.isSome then
    { newIf with AltAddrs := newIf.AltAddrs.append ⟨ip, pfx.Addr.Zone⟩ }
  else newIf

/-- Source lines 60-101: build the record from the scanned header and the address part
`fields[1]`. -/
def buildInterface (h : Header) (addrPart : List Char) : Interface :=
  let newIf : Interface := ⟨h.name, h.index, h.mtu, 0, some []⟩
  let newIf := if h.up then { newIf with Flags := newIf.Flags ||| FlagUp } else newIf
  let newIf := if h.broadcast then { newIf with Flags := newIf.Flags ||| FlagBroadcast } else newIf
  let newIf := if h.loopback then { newIf with Flags := newIf.Flags ||| FlagLoopback } else newIf
  let newIf :=
    if h.pointToPoint then { newIf with Flags := newIf.Flags ||| FlagPointToPoint } else newIf
  let newIf := if h.multicast then { newIf with Flags := newIf.Flags ||| FlagMulticast } else newIf
  let addrs := Trim addrPart [' ', '\n']
  (Split ' ' addrs).foldl addrStep newIf

/-- One round of the loop over lines (source lines 40-103): `none` when the round ends in
`continue`, `some newIf` when it reaches the `append`. -/
def parseLine (iface : List Char) : Option Interface :=
  if TrimSpace iface = [] then none
  else
    match Split '|' iface with
    | [header, addrPart] =>
      match Sscanf header with
      | none => none
      | some h => some (buildInterface h addrPart)
    | _ => none

/-- The last statements of one round of the loop over lines: `continue` leaves `ifaces`
as it is, otherwise `ifaces = append(ifaces, newIf)`. -/
def lineStep (ifaces : Slice Interface) (iface : List Char) : Slice Interface :=
  match parseLine iface with
  | none => ifaces
  | some newIf => ifaces.append newIf

/-- The function `getInterfaces`, given what the `jni.Do` call produced: the string
`ifaceString` and the error `err`. Returns the slice `ifaces` and the error. -/
def getInterfaces {ε : Type} (ifaceString : List Char) (err : Option ε) :
    Slice Interface × Option ε :=
  match err with
  | some e => (none, some e)
  | none => ((Split '\n' ifaceString).foldl lineStep none, none)

/-! ## Derived definitions used to state the properties -/

/-- The entry one address token contributes, if any: what `addrStep` appends. -/
def addrEntry (addr : List Char) : Option IPAddr :=
  (ParsePrefix addr).map fun pfx =>
    ⟨if pfx.Addr.Is4 then pfx.Addr.As4 else pfx.Addr.As16, pfx.Addr.Zone⟩

/-- The flag word of source lines 68-82. -/
def flagsOf (up broadcast loopback pointToPoint multicast : Bool) : Nat :=
  let f := 0
  let f := if up then f ||| FlagUp else f
  let f := if broadcast then f ||| FlagBroadcast else f
  let f := if loopback then f ||| FlagLoopback else f
  let f := if pointToPoint then f ||| FlagPointToPoint else f
  if multicast then f ||| FlagMulticast else f

/-- The condition under which a line yields a record: it is not blank, `|` splits it into
exactly two parts, and `Sscanf` accepts the first part. -/
def lineScans (l : List Char) : Bool :=
  decide (TrimSpace l ≠ []) && decide ((Split '|' l).length = 2) &&
    (Sscanf ((Split '|' l).headD [])).isSome

/-- Lines joined by newlines into one blob. -/
def joinLines : List (List Char) → List Char
  | [] => []
  | [l] => l
  | l :: l1 :: ls => l ++ '\n' :: joinLines (l1 :: ls)

/-- The text of a boolean field: the literal `true` or `false`. -/
def boolText (b : Bool) : List Char :=
  if b then ['t', 'r', 'u', 'e'] else ['f', 'a', 'l', 's', 'e']

/-- The character of a decimal digit. -/
def digitChar (d : Nat) : Char := Char.ofNat ('0'.toNat + d)

/-- Decimal digits of `n`, pushed in front of `acc`; `fuel` bounds the number of digits. -/
def decimalAux : Nat → Nat → List Char → List Char
  | 0, _, acc => acc
  | fuel + 1, n, acc =>
    if n < 10 then digitChar n :: acc
    else decimalAux fuel (n / 10) (digitChar (n % 10) :: acc)

/-- The decimal text of a natural number, without leading zeros. -/
def decimal (n : Nat) : List Char := decimalAux (n + 1) n []

/-- The decimal text of an integer: a minus sign in front of a negative number. -/
def decimalInt (i : Int) : List Char :=
  if i < 0 then '-' :: decimal i.natAbs else decimal i.natAbs

/-- The dotted-quad text `a.b.c.d` of four octets. -/
def dottedQuad (a b c d : Nat) : List Char :=
  decimal a ++ ('.' :: (decimal b ++ ('.' :: (decimal c ++ ('.' :: decimal d)))))

/-- The token `<addr>/<n>`: address text, a slash, the prefix length in decimal. -/
def cidrToken (addr : List Char) (n : Nat) : List Char :=
  addr ++ ('/' :: decimal n)

/-- One line to render: the header tuple, the number of extra blanks after each of the
first seven fields (a separator is one blank more than that), the number of blanks between
the last field and the bar, and the address segment. -/
structure LineSpec where
  h : Header
  g1 : Nat
  g2 : Nat
  g3 : Nat
  g4 : Nat
  g5 : Nat
  g6 : Nat
  g7 : Nat
  g8 : Nat
  addrs : List Char

/-- A run of `g` blanks. -/
def blanks (g : Nat) : List Char := List.replicate g ' '

/-- The header text
`<name> <index> <mtu> <up> <broadcast> <loopback> <pointToPoint> <multicast>`: decimal
integers, booleans as `true`/`false`, one or more blanks between fields. -/
def renderHeader (t : LineSpec) : List Char :=
  t.h.name ++ (blanks (t.g1 + 1) ++ (decimalInt t.h.index ++ (blanks (t.g2 + 1) ++
  (decimalInt t.h.mtu ++ (blanks (t.g3 + 1) ++ (boolText t.h.up ++ (blanks (t.g4 + 1) ++
  (boolText t.h.broadcast ++ (blanks (t.g5 + 1) ++ (boolText t.h.loopback ++
  (blanks (t.g6 + 1) ++ (boolText t.h.pointToPoint ++ (blanks (t.g7 + 1) ++
  (boolText t.h.multicast ++ blanks t.g8))))))))))))))

/-- The line `<header> | <address segment>`. -/
def renderLine (t : LineSpec) : List Char :=
  renderHeader t ++ ('|' :: t.addrs)

/-- What the round trip asks of a tuple: the name is non-empty and free of white space and
of `|`, index and mtu are values of the 64-bit `int`, and the address segment is free of
`|` and of newlines. -/
def LineSpec.WellFormed (t : LineSpec) : Prop :=
  t.h.name ≠ [] ∧ (∀ c ∈ t.h.name, isSpace c = false ∧ c ≠ '|') ∧
    -2 ^ 63 ≤ t.h.index ∧ t.h.index < 2 ^ 63 ∧ -2 ^ 63 ≤ t.h.mtu ∧ t.h.mtu < 2 ^ 63 ∧
    '|' ∉ t.addrs ∧ '\n' ∉ t.addrs

instance (t : LineSpec) : Decidable t.WellFormed := by
  unfold LineSpec.WellFormed
  infer_instance

/-- The header values read back from a record: name, index, mtu and the five flag bits. -/
def headerOf (r : Interface) : Header :=
  ⟨r.Name, r.Index, r.MTU, r.Flags &&& FlagUp != 0, r.Flags &&& FlagBroadcast != 0,
    r.Flags &&& FlagLoopback != 0, r.Flags &&& FlagPointToPoint != 0,
    r.Flags &&& FlagMulticast != 0⟩

/-- Two tokens that are equal, or that are an address text with two prefix lengths both
of which `ParsePrefix` accepts. -/
def SameUpToPrefixLength (t1 t2 : List Char) : Prop :=
  t1 = t2 ∨ ∃ a n m, t1 = cidrToken a n ∧ t2 = cidrToken a m ∧
    (addrEntry t1).isSome = true ∧ (addrEntry t2).isSome = true

/-! ## package path/filepath, package os, and `TsnetRegisterAndroidInterface` -/

/-- Texts joined by the separator `sep` (`strings.Join`). -/
def joinWith (sep : Char) : List (List Char) → List Char
  | [] => []
  | [l] => l
  | l :: l1 :: ls => l ++ sep :: joinWith sep (l1 :: ls)

/-- One path element in the loop of `filepath.Clean`. `out` holds the elements written so
far, the last one first. Empty elements and `.` are dropped; `..` removes the last
element when there is one that is not itself `..`, is dropped at the root, and is kept
otherwise; any other element is written. -/
def cleanStep (rooted : Bool) (out : List (List Char)) (e : List Char) : List (List Char) :=
  if e = [] ∨ e = ['.'] then out
  else if e = ['.', '.'] then
    match out with
    | [] => if rooted then [] else [e]
    | top :: rest => if top = ['.', '.'] then (if rooted then out else e :: out) else rest
  else e :: out

/-- The function `filepath.Clean` on Unix. -/
def Clean (path : List Char) : List Char :=
  if path = [] then ['.']
  else
    let rooted : Bool := path.head? = some '/'
    let body := joinWith '/' ((Split '/' path).foldl (cleanStep rooted) []).reverse
    if rooted then '/' :: body
    else if body = [] then ['.']
    else body

/-- The function `filepath.Join` with two elements: the elements from the first non-empty
one on are joined by `/` and cleaned. -/
def Join (a b : List Char) : List Char :=
  if a ≠ [] then Clean (a ++ '/' :: b)
  else if b ≠ [] then Clean b
  else []

/-- What the JNI environment and the operating system answer during the setup:
`GetJVM` (`none` is an error), `CallObjectMethod` on an object and a method name (`none`
is an error), `GoString`, and whether `os.MkdirAll` can create a path. The calls that
return no error (`NewGlobalRef`, `GetObjectClass`, `GetMethodID`) are not shown. -/
structure Platform (J O : Type) where
  GetJVM : Option J
  CallObjectMethod : O → List Char → Option O
  GoString : O → List Char
  mkdir : List Char → Bool

/-- The effects of the setup on the process and the file system, as they happen. -/
inductive Effect (J O : Type) where
  | MkdirAll (path : List Char)
  | Setenv (key value : List Char)
  | RegisterInterfaceGetter (jvm : J) (appCtx : O)

/-- The function `os.MkdirAll`: `true` when it returns a nil error. A path that holds a
NUL byte is refused by every system call; otherwise the platform decides. -/
def MkdirAll {J O : Type} (p : Platform J O) (path : List Char) : Bool :=
  !path.contains (Char.ofNat 0) && p.mkdir path

/-- The function `os.Setenv`: the effect it has, none when it returns an error (empty key,
`=` or NUL in the key, NUL in the value). The caller ignores the error. -/
def Setenv {J O : Type} (key value : List Char) : List (Effect J O) :=
  if key = [] ∨ key.contains '=' ∨ key.contains (Char.ofNat 0) ∨ value.contains (Char.ofNat 0)
  then []
  else [Effect.Setenv key value]

/-- The function `TsnetRegisterAndroidInterface`: the value returned and the effects, in
order. The getter registered is the closure over `jvm` and `appCtx`. -/
def TsnetRegisterAndroidInterface {J O : Type} (p : Platform J O) (appCtx : O) :
    Int × List (Effect J O) :=
  match p.GetJVM with
  | none => (-1, [])
  | some jvm =>
    match p.CallObjectMethod appCtx "getCacheDir".toList with
    | none => (-1, [])
    | some cacheDir =>
      match p.CallObjectMethod cacheDir "getAbsolutePath".toList with
      | none => (-1, [])
      | some cacheString =>
        let cachePath := p.GoString cacheString
        let logsDir := Join cachePath "ts-logs".toList
        if MkdirAll p logsDir = false then (-1, [])
        else
          (0, Effect.MkdirAll logsDir :: (Setenv "TS_LOGS_DIR".toList logsDir ++
            [Effect.RegisterInterfaceGetter jvm appCtx]))

/-- The Go function `strings.Fields`: the maximal runs of characters that are not white
space, in order. -/
def Fields : List Char → List (List Char)
  | [] => []
  | c :: cs =>
    if isSpace c then Fields cs
    else if cs.head?.all isSpace then [c] :: Fields cs
    else
      match Fields cs with
      | [] => [[c]]
      | f :: fs => (c :: f) :: fs

/-- A decimal integer as `%d` reads it: an optional sign `+` or `-`, then one or more
decimal digits. -/
def isDecimalInt (f : List Char) : Bool :=
  let d := if f.head? = some '+' ∨ f.head? = some '-' then f.tail else f
  !d.isEmpty && d.all isDecimalDigit

/-- The flag texts that `%t` reads whole: a single character, or `true` or `false` in
any mix of letter cases. -/
def isBoolSpelling (f : List Char) : Bool :=
  f.length == 1 || f.map Char.toLower == ['t', 'r', 'u', 'e'] ||
    f.map Char.toLower == ['f', 'a', 'l', 's', 'e']

/-- What a verb of the format consumes: after the white space it skips, a non-empty run
`pre` of characters none of which is white space, with the property `P` of the verb. -/
def Consumes {α : Type} (scanOne : List Char → Option (α × List Char))
    (P : α → List Char → Prop) : Prop :=
  ∀ s a s2, scanOne s = some (a, s2) →
    ∃ t pre, SkipSpace s = some t ∧ t = pre ++ s2 ∧ pre ≠ [] ∧
      (∀ c ∈ pre, isSpace c = false) ∧ P a pre

/-- Whether `%t` reads a boolean at the start of a field: it does not when the field
begins with `tr` without going on to spell `true`, or with `fa` without going on to spell
`false` (letters in either case); every other field starts with a boolean. -/
def boolPrefixReads (f : List Char) : Bool :=
  match f with
  | c1 :: c2 :: rest =>
    if (c1 = 't' ∨ c1 = 'T') ∧ (c2 = 'r' ∨ c2 = 'R') then
      match rest with
      | c3 :: c4 :: _ => decide ((c3 = 'u' ∨ c3 = 'U') ∧ (c4 = 'e' ∨ c4 = 'E'))
      | _ => false
    else if (c1 = 'f' ∨ c1 = 'F') ∧ (c2 = 'a' ∨ c2 = 'A') then
      match rest with
      | c3 :: c4 :: c5 :: _ =>
        decide ((c3 = 'l' ∨ c3 = 'L') ∧ (c4 = 's' ∨ c4 = 'S') ∧ (c5 = 'e' ∨ c5 = 'E'))
      | _ => false
    else true
  | _ => true

/-! ## The loop over lines -/

theorem foldl_lineStep_elems (ls : List (List Char)) (acc : Slice Interface) :
    (ls.foldl lineStep acc).elems = acc.elems ++ ls.filterMap parseLine := by
  induction ls generalizing acc with
  | nil => simp
  | cons l ls ih =>
    rw [List.foldl_cons, ih]
    unfold lineStep
    cases h : parseLine l with
    | none => simp [List.filterMap_cons, h]
    | some r => simp [List.filterMap_cons, h, Slice.append, Slice.elems]

theorem foldl_lineStep_of_all_none (ls : List (List Char)) (acc : Slice Interface)
    (h : ∀ l ∈ ls, parseLine l = none) : ls.foldl lineStep acc = acc := by
  induction ls generalizing acc with
  | nil => rfl
  | cons l ls ih =>
    rw [List.foldl_cons]
    have hl : parseLine l = none := h l (List.mem_cons_self l ls)
    have : lineStep acc l = acc := by simp [lineStep, hl]
    rw [this]
    exact ih acc (fun l1 h1 => h l1 (List.mem_cons_of_mem l h1))

theorem getInterfaces_elems {ε : Type} (blob : List Char) :
    (getInterfaces blob (none : Option ε)).1.elems = (Split '\n' blob).filterMap parseLine := by
  show ((Split '\n' blob).foldl lineStep none).elems = _
  rw [foldl_lineStep_elems]
  rfl

/-! ## The loop over address tokens -/

theorem addrStep_eq (newIf : Interface) (addr : List Char) :
    addrStep newIf addr =
      match addrEntry addr with
      | none => newIf
      | some a => { newIf with AltAddrs := newIf.AltAddrs.append a } := by
  unfold addrStep addrEntry
  cases ParsePrefix addr <;> simp

theorem foldl_addrStep (toks : List (List Char)) (newIf : Interface) (as : List IPAddr)
    (h : newIf.AltAddrs = some as) :
    toks.foldl addrStep newIf =
      { newIf with AltAddrs := some (as ++ toks.filterMap addrEntry) } := by
  induction toks generalizing newIf as with
  | nil => simp [← h]
  | cons t toks ih =>
    rw [List.foldl_cons, addrStep_eq]
    cases ht : addrEntry t with
    | none => simp only [List.filterMap_cons, ht]; exact ih newIf as h
    | some a =>
      simp only [List.filterMap_cons, ht]
      rw [ih _ (as ++ [a]) (by simp [Slice.append, Slice.elems, h])]
      simp

theorem buildInterface_eq (h : Header) (addrPart : List Char) :
    buildInterface h addrPart =
      ⟨h.name, h.index, h.mtu,
        flagsOf h.up h.broadcast h.loopback h.pointToPoint h.multicast,
        some ((Split ' ' (Trim addrPart [' ', '\n'])).filterMap addrEntry)⟩ := by
  unfold buildInterface
  rw [foldl_addrStep _ _ []]
  · rcases h with ⟨n, i, m, up, bc, lo, pp, mc⟩
    cases up <;> cases bc <;> cases lo <;> cases pp <;> cases mc <;> rfl
  · rcases h with ⟨n, i, m, up, bc, lo, pp, mc⟩
    cases up <;> cases bc <;> cases lo <;> cases pp <;> cases mc <;> rfl

theorem parseLine_eq_some (l : List Char) (r : Interface) :
    parseLine l = some r ↔
      TrimSpace l ≠ [] ∧ ∃ header addrPart h,
        Split '|' l = [header, addrPart] ∧ Sscanf header = some h ∧
          r = buildInterface h addrPart := by
  unfold parseLine
  by_cases hb : TrimSpace l = []
  · simp [hb]
  · simp only [hb, if_false, ne_eq, not_false_eq_true, true_and]
    constructor
    · intro h
      split at h
      · rename_i header addrPart hs
        cases hh : Sscanf header with
        | none => simp [hh] at h
        | some hd =>
          simp only [hh, Option.some.injEq] at h
          exact ⟨header, addrPart, hd, hs, hh, h.symm⟩
      · exact absurd h (by simp)
    · rintro ⟨header, addrPart, hd, hs, hh, rfl⟩
      simp [hs, hh]

theorem parseLine_isSome (l : List Char) : (parseLine l).isSome = lineScans l := by
  unfold parseLine lineScans
  by_cases hb : TrimSpace l = []
  · simp [hb]
  · simp only [hb, if_false, ne_eq, not_false_eq_true, decide_True, Bool.true_and]
    split
    · rename_i header addrPart hs
      cases hh : Sscanf header <;> simp [hs, hh]
    · rename_i hs
      have : (Split '|' l).length ≠ 2 := by
        intro hl
        match hsp : Split '|' l, hl with
        | [a, b], _ => exact hs a b hsp
      simp [this]

/-! ## Properties of `getInterfaces` -/

/-- C1: for every descriptor blob whose fetch succeeded, the number of records returned
equals the number of lines of the blob (split on newline) that are non-blank after
trimming, split on `|` into exactly two parts and have a header part that `Sscanf`
accepts; a line gives a record exactly when it is of that kind. -/
theorem getInterfaces_length_eq_count {ε : Type} (blob : List Char) :
    (getInterfaces blob (none : Option ε)).1.elems.length
        = (Split '\n' blob).countP lineScans ∧
      ∀ l : List Char, (parseLine l).isSome = lineScans l := by
  refine ⟨?_, parseLine_isSome⟩
  rw [getInterfaces_elems]
  generalize Split '\n' blob = ls
  induction ls with
  | nil => rfl
  | cons l ls ih =>
    have hl := parseLine_isSome l
    cases hp : parseLine l with
    | none =>
      rw [hp] at hl
      simp [List.filterMap_cons, hp, List.countP_cons, ← hl, ih]
    | some r =>
      rw [hp] at hl
      simp [List.filterMap_cons, hp, List.countP_cons, ← hl, ih]

/-- C2: every record that `getInterfaces` returns has a non-nil address list; and a line
whose address part is empty, or all of whose address tokens fail to parse, gives a record
whose address list is the empty, non-nil slice. -/
theorem getInterfaces_AltAddrs_non_nil {ε : Type} (blob : List Char) (err : Option ε)
    (r : Interface) (hr : r ∈ (getInterfaces blob err).1.elems) :
    r.AltAddrs ≠ none ∧
      (∀ h : Header, (buildInterface h []).AltAddrs = some []) ∧
      ∀ (h : Header) (addrPart : List Char),
        (∀ tok ∈ Split ' ' (Trim addrPart [' ', '\n']), ParsePrefix tok = none) →
          (buildInterface h addrPart).AltAddrs = some [] := by
  refine ⟨?_, ?_, ?_⟩
  · cases err with
    | some e => simp [getInterfaces, Slice.elems] at hr
    | none =>
      rw [getInterfaces_elems, List.mem_filterMap] at hr
      obtain ⟨l, _, hl⟩ := hr
      obtain ⟨_, header, addrPart, h, _, _, rfl⟩ := (parseLine_eq_some l r).1 hl
      rw [buildInterface_eq]
      simp
  · intro h
    rw [buildInterface_eq]
    rfl
  · intro h addrPart hall
    rw [buildInterface_eq]
    have : (Split ' ' (Trim addrPart [' ', '\n'])).filterMap addrEntry = [] := by
      rw [List.filterMap_eq_nil_iff]
      intro tok htok
      simp [addrEntry, hall tok htok]
    simp [this]

theorem getInterfaces_AltAddrs_non_nil_witness :
    (⟨"lo".toList, 1, 65536, 5, some []⟩ : Interface) ∈
        (getInterfaces "lo 1 65536 true false true false false | x/y".toList
          (none : Option Unit)).1.elems ∧
      (⟨"lo".toList, 1, 65536, 5, some []⟩ : Interface).AltAddrs ≠ none :=
  ⟨by decide,
    (getInterfaces_AltAddrs_non_nil "lo 1 65536 true false true false false | x/y".toList
      (none : Option Unit) ⟨"lo".toList, 1, 65536, 5, some []⟩ (by decide)).1⟩

/-- C3: `getInterfaces` returns exactly the error of the fetch, so its error is non-nil if
and only if the fetch failed; a failed fetch with error `e` gives `e` and the nil slice (no
records), and a successful fetch gives the nil error whatever the blob holds. -/
theorem getInterfaces_error_iff_fetch_failed {ε : Type} (blob : List Char) (err : Option ε) :
    ((getInterfaces blob err).2 ≠ none ↔ err ≠ none) ∧
      (∀ e : ε, getInterfaces blob (some e) = (none, some e) ∧
        (getInterfaces blob (some e)).1.elems = []) ∧
      (getInterfaces blob (none : Option ε)).2 = none := by
  refine ⟨?_, fun e => ⟨rfl, rfl⟩, rfl⟩
  cases err <;> simp [getInterfaces]

/-- C10: a blob all of whose lines are blank (empty or white space only), the empty blob
included, gives no records and no error. -/
theorem getInterfaces_blank_blob {ε : Type} (blob : List Char)
    (h : ∀ l ∈ Split '\n' blob, TrimSpace l = []) :
    getInterfaces blob (none : Option ε) = (none, none) ∧
      (getInterfaces blob (none : Option ε)).1.elems = [] := by
  have key : (Split '\n' blob).foldl lineStep none = none :=
    foldl_lineStep_of_all_none _ _ (fun l hl => by simp [parseLine, h l hl])
  constructor
  · simp [getInterfaces, key]
  · simp [getInterfaces, key, Slice.elems]

theorem getInterfaces_blank_blob_witness :
    (∀ l ∈ Split '\n' " \n\t\n\n \r".toList, TrimSpace l = []) ∧
      getInterfaces " \n\t\n\n \r".toList (none : Option Unit) = (none, none) ∧
      getInterfaces [] (none : Option Unit) = (none, none) :=
  ⟨by decide, (getInterfaces_blank_blob " \n\t\n\n \r".toList (by decide)).1,
    (getInterfaces_blank_blob [] (by decide)).1⟩

/-! ## Splitting and joining -/

theorem Split_ne_nil (sep : Char) (s : List Char) : Split sep s ≠ [] := by
  induction s with
  | nil => simp [Split]
  | cons c cs ih =>
    unfold Split
    split
    · simp
    · split <;> simp

theorem Split_of_not_mem (sep : Char) (l : List Char) (h : sep ∉ l) : Split sep l = [l] := by
  induction l with
  | nil => rfl
  | cons c cs ih =>
    have hc : c ≠ sep := fun e => h (e ▸ List.mem_cons_self c cs)
    have hcs : sep ∉ cs := fun e => h (List.mem_cons_of_mem c e)
    simp [Split, hc, ih hcs]

theorem Split_append_cons (sep : Char) (l rest : List Char) (h : sep ∉ l) :
    Split sep (l ++ sep :: rest) = l :: Split sep rest := by
  induction l with
  | nil => simp [Split]
  | cons c cs ih =>
    have hc : c ≠ sep := fun e => h (e ▸ List.mem_cons_self c cs)
    have hcs : sep ∉ cs := fun e => h (List.mem_cons_of_mem c e)
    simp [Split, hc, ih hcs]

theorem Split_joinLines (ls : List (List Char)) (hne : ls ≠ [])
    (h : ∀ l ∈ ls, '\n' ∉ l) : Split '\n' (joinLines ls) = ls := by
  induction ls with
  | nil => exact absurd rfl hne
  | cons l ls ih =>
    cases ls with
    | nil => exact Split_of_not_mem _ _ (h l (List.mem_cons_self _ _))
    | cons l1 ls =>
      show Split '\n' (l ++ '\n' :: joinLines (l1 :: ls)) = _
      rw [Split_append_cons _ _ _ (h l (List.mem_cons_self _ _)),
        ih (by simp) (fun x hx => h x (List.mem_cons_of_mem _ hx))]

theorem parseLine_nil : parseLine [] = none := by decide

/-- C9: when one line of a blob yields no record (it is malformed), the result is the one
for the blob with that line removed: the records of the other lines, in their order. -/
theorem getInterfaces_skip_malformed_line {ε : Type} (pre post : List (List Char))
    (bad : List Char) (hnl : ∀ l ∈ pre ++ bad :: post, '\n' ∉ l)
    (hbad : lineScans bad = false) :
    getInterfaces (joinLines (pre ++ bad :: post)) (none : Option ε)
        = getInterfaces (joinLines (pre ++ post)) (none : Option ε) ∧
      (getInterfaces (joinLines (pre ++ bad :: post)) (none : Option ε)).1.elems
        = (pre ++ post).filterMap parseLine := by
  have hb : parseLine bad = none := by
    have := parseLine_isSome bad
    rw [hbad] at this
    cases hp : parseLine bad with
    | none => rfl
    | some r => rw [hp] at this; exact absurd this (by simp)
  have hstep : ∀ acc, lineStep acc bad = acc := fun acc => by simp [lineStep, hb]
  have h1 : Split '\n' (joinLines (pre ++ bad :: post)) = pre ++ bad :: post :=
    Split_joinLines _ (by simp) hnl
  have hfold : (pre ++ bad :: post).foldl lineStep none = (pre ++ post).foldl lineStep none := by
    rw [List.foldl_append, List.foldl_cons, hstep, List.foldl_append]
  have h2 : (Split '\n' (joinLines (pre ++ post))).foldl lineStep none
      = (pre ++ post).foldl lineStep none := by
    by_cases hne : pre ++ post = []
    · rw [hne]
      show lineStep none [] = none
      simp [lineStep, parseLine_nil]
    · rw [Split_joinLines _ hne]
      intro l hl
      apply hnl l
      rcases List.mem_append.1 hl with h | h
      · exact List.mem_append_left _ h
      · exact List.mem_append_right _ (List.mem_cons_of_mem _ h)
  have hres : getInterfaces (joinLines (pre ++ bad :: post)) (none : Option ε)
      = getInterfaces (joinLines (pre ++ post)) (none : Option ε) := by
    show ((Split '\n' (joinLines (pre ++ bad :: post))).foldl lineStep none, none) = (_, none)
    rw [h1, hfold, ← h2]
  refine ⟨hres, ?_⟩
  rw [getInterfaces_elems, h1, List.filterMap_append, List.filterMap_cons, hb,
    List.filterMap_append]

theorem getInterfaces_skip_malformed_line_witness :
    (∀ l ∈ ["lo 1 65536 true false true false false |".toList] ++
        "eth0 up 1500 | 10.0.0.1/8".toList ::
          ["wlan0 30 1500 true true false false true | 10.1.10.131/24".toList], '\n' ∉ l) ∧
      lineScans "eth0 up 1500 | 10.0.0.1/8".toList = false ∧
      (getInterfaces (joinLines (["lo 1 65536 true false true false false |".toList] ++
        "eth0 up 1500 | 10.0.0.1/8".toList ::
          ["wlan0 30 1500 true true false false true | 10.1.10.131/24".toList]))
        (none : Option Unit)).1.elems
        = (["lo 1 65536 true false true false false |".toList] ++
          ["wlan0 30 1500 true true false false true | 10.1.10.131/24".toList]).filterMap
            parseLine :=
  ⟨by decide, by decide,
    (getInterfaces_skip_malformed_line ["lo 1 65536 true false true false false |".toList]
      ["wlan0 30 1500 true true false false true | 10.1.10.131/24".toList]
      "eth0 up 1500 | 10.0.0.1/8".toList (by decide) (by decide)).2⟩

theorem flagsOf_bits (up bc lo pp mc : Bool) :
    (flagsOf up bc lo pp mc &&& FlagUp = FlagUp ↔ up = true) ∧
      (flagsOf up bc lo pp mc &&& FlagBroadcast = FlagBroadcast ↔ bc = true) ∧
      (flagsOf up bc lo pp mc &&& FlagLoopback = FlagLoopback ↔ lo = true) ∧
      (flagsOf up bc lo pp mc &&& FlagPointToPoint = FlagPointToPoint ↔ pp = true) ∧
      (flagsOf up bc lo pp mc &&& FlagMulticast = FlagMulticast ↔ mc = true) ∧
      flagsOf up bc lo pp mc &&&
          (FlagUp ||| FlagBroadcast ||| FlagLoopback ||| FlagPointToPoint ||| FlagMulticast)
        = flagsOf up bc lo pp mc := by
  cases up <;> cases bc <;> cases lo <;> cases pp <;> cases mc <;> decide

/-- C6: for each of the 32 combinations of the five header booleans the flag word of the
record has the UP, BROADCAST, LOOPBACK, POINT-TO-POINT and MULTICAST bit set exactly when
the corresponding boolean is true, and no bit outside these five; up, loopback and
multicast alone give exactly UP|LOOPBACK|MULTICAST; and the same holds end to end for a
line whose five flag fields are the texts of the booleans. -/
theorem flags_bits_match_booleans (h : Header) (addrPart : List Char) :
    ((buildInterface h addrPart).Flags &&& FlagUp = FlagUp ↔ h.up = true) ∧
      ((buildInterface h addrPart).Flags &&& FlagBroadcast = FlagBroadcast ↔
        h.broadcast = true) ∧
      ((buildInterface h addrPart).Flags &&& FlagLoopback = FlagLoopback ↔
        h.loopback = true) ∧
      ((buildInterface h addrPart).Flags &&& FlagPointToPoint = FlagPointToPoint ↔
        h.pointToPoint = true) ∧
      ((buildInterface h addrPart).Flags &&& FlagMulticast = FlagMulticast ↔
        h.multicast = true) ∧
      (buildInterface h addrPart).Flags &&&
          (FlagUp ||| FlagBroadcast ||| FlagLoopback ||| FlagPointToPoint ||| FlagMulticast)
        = (buildInterface h addrPart).Flags ∧
      (buildInterface ⟨h.name, h.index, h.mtu, true, false, true, false, true⟩ addrPart).Flags
        = FlagUp ||| FlagLoopback ||| FlagMulticast ∧
      ∀ up broadcast loopback pointToPoint multicast : Bool,
        (parseLine ("eth0 2 1500 ".toList ++ boolText up ++ ' ' :: boolText broadcast ++
            ' ' :: boolText loopback ++ ' ' :: boolText pointToPoint ++
            ' ' :: boolText multicast ++ " |".toList)).map Interface.Flags
          = some (flagsOf up broadcast loopback pointToPoint multicast) := by
  rw [buildInterface_eq, buildInterface_eq]
  obtain ⟨h1, h2, h3, h4, h5, h6⟩ :=
    flagsOf_bits h.up h.broadcast h.loopback h.pointToPoint h.multicast
  refine ⟨h1, h2, h3, h4, h5, h6, rfl, ?_⟩
  intro a b c d e
  cases a <;> cases b <;> cases c <;> cases d <;> cases e <;> decide

/-- C4 (evaluation of the code): the line
`wlan0 30 1500 true true false false true | fe80::2f60:2c82:4163:8389%wlan0/64 10.1.10.131/24`
gives one record with name `wlan0`, index 30, mtu 1500 and flags UP|BROADCAST|MULTICAST,
but its address list holds the IPv4 address only: the token with the zone is rejected by
`ParsePrefix` and contributes no entry. -/
theorem getInterfaces_wlan0_example :
    getInterfaces
        "wlan0 30 1500 true true false false true | fe80::2f60:2c82:4163:8389%wlan0/64 10.1.10.131/24".toList
        (none : Option Unit)
      = (some [⟨"wlan0".toList, 30, 1500, FlagUp ||| FlagBroadcast ||| FlagMulticast,
          some [⟨[10, 1, 10, 131], []⟩]⟩], none) := by
  decide

/-! ## Decimal text -/

theorem digitChar_toNat : ∀ d, d < 10 → (digitChar d).toNat = 48 + d := by decide

theorem isDecimalDigit_iff (c : Char) : isDecimalDigit c = true ↔ 48 ≤ c.toNat ∧ c.toNat ≤ 57 := by
  simp [isDecimalDigit]

theorem isDecimalDigit_digitChar (d : Nat) (h : d < 10) : isDecimalDigit (digitChar d) = true := by
  rw [isDecimalDigit_iff, digitChar_toNat d h]
  omega

theorem decimal_of_lt_ten (n : Nat) (h : n < 10) : decimal n = [digitChar n] := by
  simp [decimal, decimalAux, h]

theorem decimalAux_eq (n : Nat) :
    ∀ fuel acc, n < fuel → decimalAux fuel n acc = decimal n ++ acc := by
  induction n using Nat.strong_induction_on with
  | _ n ih =>
    intro fuel acc hf
    obtain ⟨f, rfl⟩ : ∃ f, fuel = f + 1 := ⟨fuel - 1, by omega⟩
    by_cases h : n < 10
    · simp [decimal, decimalAux, h]
    · have hlt : n / 10 < n := by omega
      have e1 : decimalAux (f + 1) n acc = decimalAux f (n / 10) (digitChar (n % 10) :: acc) := by
        simp [decimalAux, h]
      have e2 : decimal n = decimalAux n (n / 10) [digitChar (n % 10)] := by
        simp [decimal, decimalAux, h]
      rw [e1, e2, ih (n / 10) hlt f _ (by omega), ih (n / 10) hlt n _ hlt]
      simp

theorem decimal_of_ten_le (n : Nat) (h : 10 ≤ n) :
    decimal n = decimal (n / 10) ++ [digitChar (n % 10)] := by
  have e2 : decimal n = decimalAux n (n / 10) [digitChar (n % 10)] := by
    have : ¬ n < 10 := by omega
    simp [decimal, decimalAux, this]
  rw [e2, decimalAux_eq (n / 10) n _ (by omega)]

theorem decimal_snoc (n : Nat) : ∃ init, decimal n = init ++ [digitChar (n % 10)] := by
  by_cases h : n < 10
  · exact ⟨[], by rw [decimal_of_lt_ten n h, Nat.mod_eq_of_lt h]; rfl⟩
  · exact ⟨decimal (n / 10), decimal_of_ten_le n (by omega)⟩

theorem decimal_ne_nil (n : Nat) : decimal n ≠ [] := by
  obtain ⟨init, h⟩ := decimal_snoc n
  rw [h]
  simp

theorem decimal_all_digits (n : Nat) : ∀ c ∈ decimal n, isDecimalDigit c = true := by
  induction n using Nat.strong_induction_on with
  | _ n ih =>
    intro c hc
    by_cases h : n < 10
    · rw [decimal_of_lt_ten n h] at hc
      simp only [List.mem_singleton] at hc
      rw [hc]
      exact isDecimalDigit_digitChar n h
    · rw [decimal_of_ten_le n (by omega)] at hc
      rcases List.mem_append.1 hc with h1 | h1
      · exact ih (n / 10) (by omega) c h1
      · simp only [List.mem_singleton] at h1
        rw [h1]
        exact isDecimalDigit_digitChar _ (Nat.mod_lt _ (by omega))

theorem digitsValue_snoc (l : List Char) (c : Char) :
    digitsValue (l ++ [c]) = digitsValue l * 10 + (c.toNat - '0'.toNat) := by
  simp [digitsValue, List.foldl_append]

theorem digitsValue_decimal (n : Nat) : digitsValue (decimal n) = n := by
  induction n using Nat.strong_induction_on with
  | _ n ih =>
    by_cases h : n < 10
    · rw [decimal_of_lt_ten n h]
      have := digitChar_toNat n h
      simp [digitsValue, this]
    · rw [decimal_of_ten_le n (by omega), digitsValue_snoc, ih (n / 10) (by omega)]
      have := digitChar_toNat (n % 10) (Nat.mod_lt _ (by omega))
      have e : ('0' : Char).toNat = 48 := rfl
      rw [this, e]
      omega

/-- The first character of the decimal text of a positive number is a digit from 1 to 9. -/
theorem decimal_head (n : Nat) (h : 0 < n) :
    ∃ d rest, decimal n = digitChar d :: rest ∧ 1 ≤ d ∧ d ≤ 9 := by
  induction n using Nat.strong_induction_on with
  | _ n ih =>
    by_cases h10 : n < 10
    · exact ⟨n, [], decimal_of_lt_ten n h10, h, by omega⟩
    · obtain ⟨d, rest, e, h1, h2⟩ := ih (n / 10) (by omega) (by omega)
      exact ⟨d, rest ++ [digitChar (n % 10)], by rw [decimal_of_ten_le n (by omega), e]; rfl, h1, h2⟩

/-! ## IPv4 tokens -/

theorem digitChar_ne (d : Nat) (h : d < 10) (c : Char) (hc : ¬ (48 ≤ c.toNat ∧ c.toNat ≤ 57)) :
    digitChar d ≠ c := by
  intro e
  have := digitChar_toNat d h
  rw [e] at this
  omega

theorem ne_of_isDecimalDigit (x c : Char) (hx : isDecimalDigit x = true)
    (hc : ¬ (48 ≤ c.toNat ∧ c.toNat ≤ 57)) : x ≠ c := by
  intro e
  rw [e, isDecimalDigit_iff] at hx
  exact hc hx

theorem parseIPv4Loop_digit (prev : Option Char) (fields : List Nat) (val digLen d : Nat)
    (rest : List Char) (hd : d < 10) (h1 : ¬ (digLen = 1 ∧ val = 0)) (h2 : val * 10 + d ≤ 255) :
    parseIPv4Loop prev fields val digLen (digitChar d :: rest)
      = parseIPv4Loop (some (digitChar d)) fields (val * 10 + d) (digLen + 1) rest := by
  have e : (digitChar d).toNat - ('0' : Char).toNat = d := by
    rw [digitChar_toNat d hd]
    show 48 + d - 48 = d
    omega
  rw [parseIPv4Loop]
  simp only [isDecimalDigit_digitChar d hd, if_true, e, h1, if_false]
  rw [if_neg (by omega)]

theorem parseIPv4Loop_octet (a : Nat) (ha : a < 256) (prev : Option Char) (fields : List Nat)
    (rest : List Char) :
    parseIPv4Loop prev fields 0 0 (decimal a ++ rest)
      = parseIPv4Loop (some (digitChar (a % 10))) fields a (decimal a).length rest := by
  by_cases h1 : a < 10
  · rw [decimal_of_lt_ten a h1, Nat.mod_eq_of_lt h1]
    simp only [List.singleton_append, List.length_singleton]
    rw [parseIPv4Loop_digit _ _ _ _ _ _ h1 (by omega) (by omega)]
    simp
  · by_cases h2 : a < 100
    · rw [decimal_of_ten_le a (by omega), decimal_of_lt_ten (a / 10) (by omega)]
      simp only [List.singleton_append, List.cons_append, List.nil_append, List.length_cons,
        List.length_nil]
      rw [parseIPv4Loop_digit _ _ _ _ _ _ (by omega) (by omega) (by omega),
        parseIPv4Loop_digit _ _ _ _ _ _ (Nat.mod_lt _ (by omega)) (by omega) (by omega)]
      congr 1
      omega
    · rw [decimal_of_ten_le a (by omega), decimal_of_ten_le (a / 10) (by omega),
        decimal_of_lt_ten (a / 10 / 10) (by omega)]
      simp only [List.singleton_append, List.cons_append, List.nil_append, List.length_cons,
        List.length_nil]
      rw [parseIPv4Loop_digit _ _ _ _ _ _ (by omega) (by omega) (by omega),
        parseIPv4Loop_digit _ _ _ _ _ _ (Nat.mod_lt _ (by omega)) (by omega) (by omega),
        parseIPv4Loop_digit _ _ _ _ _ _ (Nat.mod_lt _ (by omega)) (by omega) (by omega)]
      congr 1
      omega

theorem parseIPv4Loop_dot (d : Nat) (hd : d < 10) (fields : List Nat) (val digLen : Nat)
    (rest : List Char) (hr : rest ≠ []) (hf : fields.length < 3) :
    parseIPv4Loop (some (digitChar d)) fields val digLen ('.' :: rest)
      = parseIPv4Loop (some '.') (fields ++ [val]) 0 0 rest := by
  have hne : digitChar d ≠ '.' := digitChar_ne d hd '.' (by decide)
  have hnd : isDecimalDigit '.' = false := by decide
  rw [parseIPv4Loop]
  simp [hnd, hr, hne]
  omega

theorem parseIPv4_dottedQuad (a b c d : Nat) (ha : a < 256) (hb : b < 256) (hc : c < 256)
    (hd : d < 256) : parseIPv4 (dottedQuad a b c d) = some [a, b, c, d] := by
  unfold parseIPv4 dottedQuad
  rw [parseIPv4Loop_octet a ha,
    parseIPv4Loop_dot _ (Nat.mod_lt _ (by omega)) _ _ _ _ (by simp [decimal_ne_nil]) (by simp),
    parseIPv4Loop_octet b hb,
    parseIPv4Loop_dot _ (Nat.mod_lt _ (by omega)) _ _ _ _ (by simp [decimal_ne_nil]) (by simp),
    parseIPv4Loop_octet c hc,
    parseIPv4Loop_dot _ (Nat.mod_lt _ (by omega)) _ _ _ _ (decimal_ne_nil d) (by simp)]
  have := parseIPv4Loop_octet d hd (some '.') [a, b, c] []
  rw [List.append_nil] at this
  show parseIPv4Loop (some '.') [a, b, c] 0 0 (decimal d) = some [a, b, c, d]
  rw [this]
  simp [parseIPv4Loop]

theorem find?_append_of_all_false {α : Type} (p : α → Bool) (l r : List α)
    (h : ∀ x ∈ l, p x = false) : (l ++ r).find? p = r.find? p := by
  induction l with
  | nil => rfl
  | cons x l ih =>
    rw [List.cons_append, List.find?_cons, h x (List.mem_cons_self _ _)]
    exact ih (fun y hy => h y (List.mem_cons_of_mem _ hy))

theorem ParseAddr_dottedQuad (a b c d : Nat) (ha : a < 256) (hb : b < 256) (hc : c < 256)
    (hd : d < 256) : ParseAddr (dottedQuad a b c d) = some (AddrFrom4 [a, b, c, d]) := by
  have hfind : (dottedQuad a b c d).find? (fun c => c = '.' ∨ c = ':' ∨ c = '%') = some '.' := by
    unfold dottedQuad
    rw [find?_append_of_all_false]
    · simp
    · intro x hx
      have hx1 := decimal_all_digits a x hx
      have h1 := ne_of_isDecimalDigit x '.' hx1 (by decide)
      have h2 := ne_of_isDecimalDigit x ':' hx1 (by decide)
      have h3 := ne_of_isDecimalDigit x '%' hx1 (by decide)
      simp [h1, h2, h3]
  unfold ParseAddr
  rw [hfind, parseIPv4_dottedQuad a b c d ha hb hc hd]
  rfl

theorem cutLast_of_not_mem (sep : Char) (b : List Char) (h : sep ∉ b) : cutLast sep b = none := by
  induction b with
  | nil => rfl
  | cons c cs ih =>
    have hc : c ≠ sep := fun e => h (e ▸ List.mem_cons_self c cs)
    have hcs : sep ∉ cs := fun e => h (List.mem_cons_of_mem c e)
    simp [cutLast, ih hcs, hc]

theorem cutLast_append (sep : Char) (a b : List Char) (h : sep ∉ b) :
    cutLast sep (a ++ sep :: b) = some (a, b) := by
  induction a with
  | nil => simp [cutLast, cutLast_of_not_mem sep b h]
  | cons c cs ih => simp [cutLast, ih]

theorem decimal_not_mem (n : Nat) (c : Char) (hc : ¬ (48 ≤ c.toNat ∧ c.toNat ≤ 57)) :
    c ∉ decimal n := fun h =>
  ne_of_isDecimalDigit c c (decimal_all_digits n c h) hc rfl

theorem decimal_cons (n : Nat) : ∃ c rest, decimal n = c :: rest ∧ isDecimalDigit c = true := by
  cases h : decimal n with
  | nil => exact absurd h (decimal_ne_nil n)
  | cons c rest =>
    exact ⟨c, rest, rfl, decimal_all_digits n c (by rw [h]; exact List.mem_cons_self _ _)⟩

theorem ParseUint_decimal (n : Nat) (h : n < 2 ^ 64) : ParseUint (decimal n) = some n := by
  unfold ParseUint
  rw [if_neg (decimal_ne_nil n), if_pos (List.all_eq_true.2 (decimal_all_digits n)),
    digitsValue_decimal, if_pos h]

theorem ParseInt_decimal (n : Nat) (h : n < 2 ^ 63) : ParseInt (decimal n) = some (n : Int) := by
  obtain ⟨c, rest, e, hc⟩ := decimal_cons n
  have h1 : c ≠ '+' := ne_of_isDecimalDigit c '+' hc (by decide)
  have h2 : c ≠ '-' := ne_of_isDecimalDigit c '-' hc (by decide)
  unfold ParseInt
  rw [if_neg (decimal_ne_nil n)]
  have hu := ParseUint_decimal n (by omega)
  simp only [e, List.head?_cons, Option.some.injEq, h1, h2, or_self, if_false] at hu ⊢
  rw [hu]
  simp
  omega

theorem ParseInt_neg_decimal (n : Nat) (h : n ≤ 2 ^ 63) :
    ParseInt ('-' :: decimal n) = some (-(n : Int)) := by
  unfold ParseInt
  have hu := ParseUint_decimal n (by omega)
  simp [hu]
  omega

theorem ParsePrefix_dottedQuad (a b c d n : Nat) (ha : a < 256) (hb : b < 256) (hc : c < 256)
    (hd : d < 256) (hn : n ≤ 32) :
    ParsePrefix (cidrToken (dottedQuad a b c d) n)
      = some (PrefixFrom (AddrFrom4 [a, b, c, d]) n) := by
  have hbits : ¬ (1 < (decimal n).length ∧
      ¬ ((decimal n).head?.any fun c => '1'.toNat ≤ c.toNat ∧ c.toNat ≤ '9'.toNat) = true) := by
    by_cases h0 : n = 0
    · subst h0
      decide
    · obtain ⟨k, rest, e, h1, h2⟩ := decimal_head n (by omega)
      have := digitChar_toNat k (by omega)
      have e1 : ('1' : Char).toNat = 49 := rfl
      have e9 : ('9' : Char).toNat = 57 := rfl
      simp only [e, List.head?_cons, Option.any_some, this, e1, e9]
      intro hh
      apply hh.2
      simp
      omega
  have h6 : (AddrFrom4 [a, b, c, d]).Is6 = false := by simp [Addr.Is6, AddrFrom4]
  unfold ParsePrefix cidrToken
  rw [cutLast_append '/' _ _ (decimal_not_mem n '/' (by decide))]
  simp only
  rw [ParseAddr_dottedQuad a b c d ha hb hc hd]
  simp only [h6, Bool.false_eq_true, false_and, if_false]
  rw [if_neg hbits, ParseInt_decimal n (by omega)]
  simp only
  rw [if_neg (by omega)]

theorem addrEntry_dottedQuad (a b c d n : Nat) (ha : a < 256) (hb : b < 256) (hc : c < 256)
    (hd : d < 256) (hn : n ≤ 32) :
    addrEntry (cidrToken (dottedQuad a b c d) n) = some ⟨[a, b, c, d], []⟩ := by
  unfold addrEntry
  rw [ParsePrefix_dottedQuad a b c d n ha hb hc hd hn]
  simp [PrefixFrom, Addr.withoutZone, Addr.Is6, Addr.Is4, Addr.As4, AddrFrom4, Addr.Zone,
    Prefix.Addr]

/-! ## Trimming -/

theorem trimBoth_cons_of_pos (p : Char → Bool) (x : Char) (s : List Char) (h : p x = true) :
    trimBoth p (x :: s) = trimBoth p s := by
  simp [trimBoth, List.dropWhile_cons, h]

theorem trimBoth_eq_self (p : Char → Bool) (s : List Char) (c : Char) (rest : List Char)
    (hs : s = c :: rest) (hc : p c = false) (init : List Char) (e : Char)
    (hs2 : s = init ++ [e]) (he : p e = false) : trimBoth p s = s := by
  have h1 : s.dropWhile p = s := by rw [hs]; simp [List.dropWhile_cons, hc]
  unfold trimBoth
  rw [h1, hs2]
  simp [List.dropWhile_cons, he]

theorem mem_dropWhile_of_false (p : Char → Bool) (s : List Char) (c : Char) (hm : c ∈ s)
    (hc : p c = false) : c ∈ s.dropWhile p := by
  induction s with
  | nil => exact absurd hm (List.not_mem_nil c)
  | cons x xs ih =>
    rw [List.dropWhile_cons]
    by_cases hx : p x = true
    · rw [if_pos hx]
      rcases List.mem_cons.1 hm with h | h
      · rw [h, hx] at hc
        exact absurd hc (by simp)
      · exact ih h
    · rw [if_neg hx]
      exact hm

theorem trimBoth_ne_nil (p : Char → Bool) (s : List Char) (c : Char) (hm : c ∈ s)
    (hc : p c = false) : trimBoth p s ≠ [] := by
  have h1 := mem_dropWhile_of_false p s c hm hc
  have h2 := mem_dropWhile_of_false p (s.dropWhile p).reverse c (List.mem_reverse.2 h1) hc
  unfold trimBoth
  intro e
  rw [List.reverse_eq_nil_iff] at e
  rw [e] at h2
  exact absurd h2 (List.not_mem_nil c)

theorem isSpace_of_isDecimalDigit (c : Char) (h : isDecimalDigit c = true) : isSpace c = false := by
  rw [isDecimalDigit_iff] at h
  unfold isSpace
  simp
  omega

theorem cidrToken_dottedQuad_chars (a b c d n : Nat) (x : Char)
    (hx : x ∈ cidrToken (dottedQuad a b c d) n) : isDecimalDigit x = true ∨ x = '.' ∨ x = '/' := by
  unfold cidrToken dottedQuad at hx
  simp only [List.mem_append, List.mem_cons] at hx
  rcases hx with (h | h | h | h | h | h | h) | h | h
  · exact Or.inl (decimal_all_digits a x h)
  · exact Or.inr (Or.inl h)
  · exact Or.inl (decimal_all_digits b x h)
  · exact Or.inr (Or.inl h)
  · exact Or.inl (decimal_all_digits c x h)
  · exact Or.inr (Or.inl h)
  · exact Or.inl (decimal_all_digits d x h)
  · exact Or.inr (Or.inr h)
  · exact Or.inl (decimal_all_digits n x h)

theorem cidrToken_dottedQuad_not_mem (a b c d n : Nat) (x : Char)
    (h1 : ¬ (48 ≤ x.toNat ∧ x.toNat ≤ 57)) (h2 : x ≠ '.') (h3 : x ≠ '/') :
    x ∉ cidrToken (dottedQuad a b c d) n := by
  intro hx
  rcases cidrToken_dottedQuad_chars a b c d n x hx with h | h | h
  · exact h1 ((isDecimalDigit_iff x).1 h)
  · exact h2 h
  · exact h3 h

theorem cidrToken_dottedQuad_ends (a b c d n : Nat) :
    (∃ x rest, cidrToken (dottedQuad a b c d) n = x :: rest ∧ isDecimalDigit x = true) ∧
      ∃ init e, cidrToken (dottedQuad a b c d) n = init ++ [e] ∧ isDecimalDigit e = true := by
  constructor
  · obtain ⟨x, rest, e, hx⟩ := decimal_cons a
    exact ⟨x, _, by unfold cidrToken dottedQuad; rw [e]; rfl, hx⟩
  · obtain ⟨init, e⟩ := decimal_snoc n
    refine ⟨dottedQuad a b c d ++ '/' :: init, digitChar (n % 10), ?_,
      isDecimalDigit_digitChar _ (Nat.mod_lt _ (by omega))⟩
    unfold cidrToken
    rw [e]
    simp

/-- C8: for octets `a b c d` and a prefix length `n` from 0 to 32 the token `a.b.c.d/n`
yields the address entry with the four bytes `[a, b, c, d]` (no host bit masked off) and
the empty zone: wherever it stands among the tokens of the address part of a line that is
accepted, and in particular as the only token after a header that scans. -/
theorem ipv4_token_entry (a b c d n : Nat) (ha : a < 256) (hb : b < 256) (hc : c < 256)
    (hd : d < 256) (hn : n ≤ 32) :
    addrEntry (cidrToken (dottedQuad a b c d) n) = some ⟨[a, b, c, d], []⟩ ∧
      (∀ (h : Header) (addrPart : List Char),
        cidrToken (dottedQuad a b c d) n ∈ Split ' ' (Trim addrPart [' ', '\n']) →
          (⟨[a, b, c, d], []⟩ : IPAddr) ∈ (buildInterface h addrPart).AltAddrs.elems) ∧
      ∀ (header : List Char) (h : Header), '|' ∉ header → Sscanf header = some h →
        parseLine (header ++ '|' :: ' ' :: cidrToken (dottedQuad a b c d) n)
          = some ⟨h.name, h.index, h.mtu,
              flagsOf h.up h.broadcast h.loopback h.pointToPoint h.multicast,
              some [⟨[a, b, c, d], []⟩]⟩ := by
  have hentry := addrEntry_dottedQuad a b c d n ha hb hc hd hn
  refine ⟨hentry, ?_, ?_⟩
  · intro h addrPart hmem
    rw [buildInterface_eq]
    exact List.mem_filterMap.2 ⟨_, hmem, hentry⟩
  · intro header h hbar hscan
    obtain ⟨⟨x, rest, ex, hx⟩, ⟨init, e, ee, he⟩⟩ := cidrToken_dottedQuad_ends a b c d n
    have hbar2 : '|' ∉ ' ' :: cidrToken (dottedQuad a b c d) n := by
      intro hm
      rcases List.mem_cons.1 hm with h1 | h1
      · exact absurd h1 (by decide)
      · exact cidrToken_dottedQuad_not_mem a b c d n '|' (by decide) (by decide) (by decide) h1
    have hsplit : Split '|' (header ++ '|' :: ' ' :: cidrToken (dottedQuad a b c d) n)
        = [header, ' ' :: cidrToken (dottedQuad a b c d) n] := by
      rw [Split_append_cons _ _ _ hbar, Split_of_not_mem _ _ hbar2]
    have hblank : TrimSpace (header ++ '|' :: ' ' :: cidrToken (dottedQuad a b c d) n) ≠ [] := by
      apply trimBoth_ne_nil isSpace _ x _ (isSpace_of_isDecimalDigit x hx)
      rw [ex]
      simp
    have htrim : Trim (' ' :: cidrToken (dottedQuad a b c d) n) [' ', '\n']
        = cidrToken (dottedQuad a b c d) n := by
      unfold Trim
      rw [trimBoth_cons_of_pos _ _ _ (by decide)]
      have hp : ∀ y, isDecimalDigit y = true → ([' ', '\n'].contains y) = false := by
        intro y hy
        have h1 := ne_of_isDecimalDigit y ' ' hy (by decide)
        have h2 := ne_of_isDecimalDigit y '\n' hy (by decide)
        simp [h1, h2]
      exact trimBoth_eq_self _ _ x rest ex (hp x hx) init e ee (hp e he)
    have htoks : Split ' ' (cidrToken (dottedQuad a b c d) n) = [cidrToken (dottedQuad a b c d) n] :=
      Split_of_not_mem _ _
        (cidrToken_dottedQuad_not_mem a b c d n ' ' (by decide) (by decide) (by decide))
    unfold parseLine
    rw [if_neg hblank, hsplit]
    simp only [hscan]
    rw [buildInterface_eq, htrim, htoks]
    simp [hentry]

theorem ipv4_token_entry_witness :
    addrEntry "10.1.10.131/24".toList = some ⟨[10, 1, 10, 131], []⟩ ∧
      parseLine "eth0 2 1500 true true false false true | 10.1.10.131/24".toList
        = some ⟨"eth0".toList, 2, 1500, 19, some [⟨[10, 1, 10, 131], []⟩]⟩ :=
  ⟨(ipv4_token_entry 10 1 10 131 24 (by decide) (by decide) (by decide) (by decide)
      (by decide)).1,
    (ipv4_token_entry 10 1 10 131 24 (by decide) (by decide) (by decide) (by decide)
      (by decide)).2.2 "eth0 2 1500 true true false false true ".toList
      ⟨"eth0".toList, 2, 1500, true, true, false, false, true⟩ (by decide) (by decide)⟩

/-! ## Scanning a rendered header -/

theorem takeWhile_append_of_stop (p : Char → Bool) (l r : List Char)
    (hl : ∀ x ∈ l, p x = true) (hr : ∀ c ∈ r.head?, p c = false) :
    (l ++ r).takeWhile p = l := by
  induction l with
  | nil =>
    cases r with
    | nil => rfl
    | cons c r => simp [List.takeWhile_cons, hr c (by simp)]
  | cons x l ih =>
    rw [List.cons_append, List.takeWhile_cons, hl x (List.mem_cons_self _ _)]
    simp only [if_true]
    rw [ih (fun y hy => hl y (List.mem_cons_of_mem _ hy))]

theorem dropWhile_append_of_stop (p : Char → Bool) (l r : List Char)
    (hl : ∀ x ∈ l, p x = true) (hr : ∀ c ∈ r.head?, p c = false) :
    (l ++ r).dropWhile p = r := by
  induction l with
  | nil =>
    cases r with
    | nil => rfl
    | cons c r => simp [List.dropWhile_cons, hr c (by simp)]
  | cons x l ih =>
    rw [List.cons_append, List.dropWhile_cons, hl x (List.mem_cons_self _ _)]
    simp only [if_true]
    exact ih (fun y hy => hl y (List.mem_cons_of_mem _ hy))

theorem SkipSpace_of_not_space (c : Char) (rest : List Char) (h : isSpace c = false) :
    SkipSpace (c :: rest) = some (c :: rest) := by
  have h1 : c ≠ '\r' := fun e => by rw [e] at h; exact absurd h (by decide)
  have h2 : c ≠ '\n' := fun e => by rw [e] at h; exact absurd h (by decide)
  simp [SkipSpace, h1, h2, h]

theorem advanceSpace_blanks (g : Nat) (rest : List Char)
    (hr : ∀ c ∈ rest.head?, isSpace c = false) :
    advanceSpace (List.replicate (g + 1) ' ' ++ rest) = some rest := by
  have hd : (List.replicate (g + 1) ' ' ++ rest).dropWhile (fun r => isSpace r && r != '\n')
      = rest := by
    apply dropWhile_append_of_stop
    · intro x hx
      rw [List.eq_of_mem_replicate hx]
      decide
    · intro c hc
      simp [hr c hc]
  have hs : isSpace ' ' = true := by decide
  rw [List.replicate_succ, List.cons_append] at hd ⊢
  simp only [advanceSpace, hs, Bool.not_true, Bool.false_eq_true, if_false]
  rw [if_neg (by decide), hd]

theorem verbThenSpace_convertString (name : List Char) (g : Nat) (rest : List Char)
    (hne : name ≠ []) (hname : ∀ c ∈ name, isSpace c = false)
    (hr : ∀ c ∈ rest.head?, isSpace c = false) :
    verbThenSpace convertString (name ++ (List.replicate (g + 1) ' ' ++ rest))
      = some (name, rest) := by
  obtain ⟨c, cs, rfl⟩ : ∃ c cs, name = c :: cs := by
    cases name with
    | nil => exact absurd rfl hne
    | cons c cs => exact ⟨c, cs, rfl⟩
  have hskip := SkipSpace_of_not_space c (cs ++ (List.replicate (g + 1) ' ' ++ rest))
    (hname c (List.mem_cons_self _ _))
  have hall : ∀ x ∈ c :: cs, notSpace x = true := fun x hx => by simp [notSpace, hname x hx]
  have hstop : ∀ x ∈ (List.replicate (g + 1) ' ' ++ rest).head?, notSpace x = false := by
    intro x hx
    rw [List.replicate_succ, List.cons_append, List.head?_cons, Option.mem_def,
      Option.some.injEq] at hx
    rw [← hx]
    decide
  have htake := takeWhile_append_of_stop notSpace (c :: cs) _ hall hstop
  have hdrop := dropWhile_append_of_stop notSpace (c :: cs) _ hall hstop
  rw [List.cons_append] at htake hdrop ⊢
  have hconv : convertString (c :: (cs ++ (List.replicate (g + 1) ' ' ++ rest)))
      = some (c :: cs, List.replicate (g + 1) ' ' ++ rest) := by
    simp only [convertString, hskip, notEOF, Option.bind_eq_bind, Option.some_bind,
      Option.pure_def, bind, pure, reduceCtorEq, if_false, htake, hdrop]
  simp only [verbThenSpace, hskip, hconv, advanceSpace_blanks g rest hr]

theorem scanInt_decimalInt (i : Int) (rest : List Char) (h1 : -2 ^ 63 ≤ i) (h2 : i < 2 ^ 63)
    (hr : ∀ c ∈ rest.head?, isDecimalDigit c = false) :
    scanInt (decimalInt i ++ rest) = some (i, rest) := by
  obtain ⟨c, cs, e, hc⟩ := decimal_cons i.natAbs
  have hall := decimal_all_digits i.natAbs
  have htake := takeWhile_append_of_stop isDecimalDigit (decimal i.natAbs) rest hall hr
  have hdrop := dropWhile_append_of_stop isDecimalDigit (decimal i.natAbs) rest hall hr
  have hcs : isSpace c = false := isSpace_of_isDecimalDigit c hc
  have hp : c ≠ '+' := ne_of_isDecimalDigit c '+' hc (by decide)
  have hm : c ≠ '-' := ne_of_isDecimalDigit c '-' hc (by decide)
  have hfit : -(2 : Int) ^ (intBits - 1) ≤ i ∧ i < 2 ^ (intBits - 1) := ⟨h1, h2⟩
  by_cases hneg : i < 0
  · have hparse : ParseInt ('-' :: decimal i.natAbs) = some i := by
      rw [ParseInt_neg_decimal i.natAbs (by omega)]
      congr 1
      omega
    have hskip := SkipSpace_of_not_space '-' (decimal i.natAbs ++ rest) (by decide)
    simp only [decimalInt, hneg, if_true, List.cons_append]
    simp only [scanInt, hskip, notEOF, Option.bind_eq_bind, Option.some_bind, bind, pure,
      reduceCtorEq, if_false, or_true, if_true, htake, hdrop, decimal_ne_nil,
      List.singleton_append, hparse]
    simp [e, hfit]
  · have hparse : ParseInt (decimal i.natAbs) = some i := by
      rw [ParseInt_decimal i.natAbs (by omega)]
      congr 1
      omega
    rw [e] at htake hdrop hparse
    have hskip := SkipSpace_of_not_space c (cs ++ rest) hcs
    simp only [decimalInt, hneg, if_false, e, List.cons_append] at htake hdrop ⊢
    simp only [scanInt, hskip, notEOF, Option.bind_eq_bind, Option.some_bind, bind, pure,
      reduceCtorEq, if_false, hp, hm, or_self, htake, hdrop, List.nil_append, hparse]
    simp [hfit]

theorem verbThenSpace_scanInt (i : Int) (g : Nat) (rest : List Char) (h1 : -2 ^ 63 ≤ i)
    (h2 : i < 2 ^ 63) (hr : ∀ c ∈ rest.head?, isSpace c = false) :
    verbThenSpace scanInt (decimalInt i ++ (List.replicate (g + 1) ' ' ++ rest))
      = some (i, rest) := by
  have hstop : ∀ x ∈ (List.replicate (g + 1) ' ' ++ rest).head?, isDecimalDigit x = false := by
    intro x hx
    rw [List.replicate_succ, List.cons_append, List.head?_cons, Option.mem_def,
      Option.some.injEq] at hx
    rw [← hx]
    decide
  have hscan := scanInt_decimalInt i _ h1 h2 hstop
  have hskip : SkipSpace (decimalInt i ++ (List.replicate (g + 1) ' ' ++ rest))
      = some (decimalInt i ++ (List.replicate (g + 1) ' ' ++ rest)) := by
    by_cases hneg : i < 0
    · simp only [decimalInt, hneg, if_true, List.cons_append]
      exact SkipSpace_of_not_space _ _ (by decide)
    · obtain ⟨c, cs, e, hc⟩ := decimal_cons i.natAbs
      simp only [decimalInt, hneg, if_false, e, List.cons_append]
      exact SkipSpace_of_not_space _ _ (isSpace_of_isDecimalDigit c hc)
  simp only [verbThenSpace, hskip, hscan, advanceSpace_blanks g rest hr]

theorem scanBool_boolText (b : Bool) (rest : List Char) :
    SkipSpace (boolText b ++ rest) = some (boolText b ++ rest) ∧
      scanBool (boolText b ++ rest) = some (b, rest) := by
  cases b
  · have hskip := SkipSpace_of_not_space 'f' ('a' :: 'l' :: 's' :: 'e' :: rest) (by decide)
    refine ⟨hskip, ?_⟩
    show scanBool ('f' :: 'a' :: 'l' :: 's' :: 'e' :: rest) = _
    simp [scanBool, hskip, notEOF, accept, bind]
  · have hskip := SkipSpace_of_not_space 't' ('r' :: 'u' :: 'e' :: rest) (by decide)
    refine ⟨hskip, ?_⟩
    show scanBool ('t' :: 'r' :: 'u' :: 'e' :: rest) = _
    simp [scanBool, hskip, notEOF, accept, bind]

theorem verbThenSpace_scanBool (b : Bool) (g : Nat) (rest : List Char)
    (hr : ∀ c ∈ rest.head?, isSpace c = false) :
    verbThenSpace scanBool (boolText b ++ (blanks (g + 1) ++ rest)) = some (b, rest) := by
  obtain ⟨hskip, hscan⟩ := scanBool_boolText b (blanks (g + 1) ++ rest)
  simp only [verbThenSpace, hskip, hscan]
  unfold blanks
  rw [advanceSpace_blanks g rest hr]

theorem lastVerb_scanBool (b : Bool) (rest : List Char) :
    lastVerb scanBool (boolText b ++ rest) = some b := by
  obtain ⟨hskip, hscan⟩ := scanBool_boolText b rest
  simp only [lastVerb, hskip, hscan, Option.map_some']

theorem head_boolText (b : Bool) (rest : List Char) :
    ∀ c ∈ (boolText b ++ rest).head?, isSpace c = false := by
  intro c hc
  cases b
  · have : c = 'f' := by simpa [boolText] using hc.symm
    rw [this]
    decide
  · have : c = 't' := by simpa [boolText] using hc.symm
    rw [this]
    decide

theorem head_decimalInt (i : Int) (rest : List Char) :
    ∀ c ∈ (decimalInt i ++ rest).head?, isSpace c = false := by
  intro c hc
  by_cases hneg : i < 0
  · have : c = '-' := by simpa [decimalInt, hneg] using hc.symm
    rw [this]
    decide
  · obtain ⟨x, xs, e, hx⟩ := decimal_cons i.natAbs
    have : c = x := by simpa [decimalInt, hneg, e] using hc.symm
    rw [this]
    exact isSpace_of_isDecimalDigit x hx

theorem scanFlags_rendered (b1 b2 b3 b4 b5 : Bool) (g4 g5 g6 g7 : Nat) (rest : List Char) :
    scanFlags (boolText b1 ++ (blanks (g4 + 1) ++ (boolText b2 ++ (blanks (g5 + 1) ++
      (boolText b3 ++ (blanks (g6 + 1) ++ (boolText b4 ++ (blanks (g7 + 1) ++
      (boolText b5 ++ rest)))))))))
      = some (b1, b2, b3, b4, b5) := by
  unfold scanFlags
  rw [verbThenSpace_scanBool b1 g4 _ (head_boolText _ _)]
  simp only [Option.some_bind]
  rw [verbThenSpace_scanBool b2 g5 _ (head_boolText _ _)]
  simp only [Option.some_bind]
  rw [verbThenSpace_scanBool b3 g6 _ (head_boolText _ _)]
  simp only [Option.some_bind]
  rw [verbThenSpace_scanBool b4 g7 _ (head_boolText _ _)]
  simp only [Option.some_bind]
  rw [lastVerb_scanBool]
  rfl

/-- Scanning a rendered header gives back the tuple it was rendered from. -/
theorem Sscanf_renderHeader (t : LineSpec) (hw : t.WellFormed) :
    Sscanf (renderHeader t) = some t.h := by
  obtain ⟨hne, hname, hi1, hi2, hm1, hm2, _, _⟩ := hw
  unfold Sscanf renderHeader blanks
  rw [verbThenSpace_convertString _ _ _ hne (fun c hc => (hname c hc).1) (head_decimalInt _ _)]
  simp only [Option.some_bind]
  rw [verbThenSpace_scanInt _ _ _ hi1 hi2 (head_decimalInt _ _)]
  simp only [Option.some_bind]
  rw [verbThenSpace_scanInt _ _ _ hm1 hm2 (head_boolText _ _)]
  simp only [Option.some_bind]
  have := scanFlags_rendered t.h.up t.h.broadcast t.h.loopback t.h.pointToPoint t.h.multicast
    t.g4 t.g5 t.g6 t.g7 (blanks t.g8)
  unfold blanks at this
  rw [this]
  rfl

theorem renderHeader_chars (t : LineSpec) (x : Char) (hx : x ∈ renderHeader t) :
    x ∈ t.h.name ∨ x = ' ' ∨ x = '-' ∨ isDecimalDigit x = true ∨
      x ∈ ['t', 'r', 'u', 'e', 'f', 'a', 'l', 's'] := by
  have hb : ∀ g, x ∈ blanks g → x = ' ' := fun g h => List.eq_of_mem_replicate h
  have hd : ∀ i : Int, x ∈ decimalInt i → x = '-' ∨ isDecimalDigit x = true := by
    intro i h
    unfold decimalInt at h
    split at h
    · rcases List.mem_cons.1 h with h | h
      · exact Or.inl h
      · exact Or.inr (decimal_all_digits _ x h)
    · exact Or.inr (decimal_all_digits _ x h)
  have ht : ∀ b : Bool, x ∈ boolText b → x ∈ ['t', 'r', 'u', 'e', 'f', 'a', 'l', 's'] := by
    intro b h
    cases b
    · simp only [boolText, Bool.false_eq_true, if_false, List.mem_cons, List.mem_singleton,
        List.not_mem_nil, or_false] at h ⊢
      tauto
    · simp only [boolText, if_true, List.mem_cons, List.mem_singleton, List.not_mem_nil,
        or_false] at h ⊢
      tauto
  unfold renderHeader at hx
  simp only [List.mem_append] at hx
  rcases hx with h | h | h | h | h | h | h | h | h | h | h | h | h | h | h | h
  · exact Or.inl h
  · exact Or.inr (Or.inl (hb _ h))
  · rcases hd _ h with h | h
    · exact Or.inr (Or.inr (Or.inl h))
    · exact Or.inr (Or.inr (Or.inr (Or.inl h)))
  · exact Or.inr (Or.inl (hb _ h))
  · rcases hd _ h with h | h
    · exact Or.inr (Or.inr (Or.inl h))
    · exact Or.inr (Or.inr (Or.inr (Or.inl h)))
  · exact Or.inr (Or.inl (hb _ h))
  · exact Or.inr (Or.inr (Or.inr (Or.inr (ht _ h))))
  · exact Or.inr (Or.inl (hb _ h))
  · exact Or.inr (Or.inr (Or.inr (Or.inr (ht _ h))))
  · exact Or.inr (Or.inl (hb _ h))
  · exact Or.inr (Or.inr (Or.inr (Or.inr (ht _ h))))
  · exact Or.inr (Or.inl (hb _ h))
  · exact Or.inr (Or.inr (Or.inr (Or.inr (ht _ h))))
  · exact Or.inr (Or.inl (hb _ h))
  · exact Or.inr (Or.inr (Or.inr (Or.inr (ht _ h))))
  · exact Or.inr (Or.inl (hb _ h))

theorem renderHeader_not_mem (t : LineSpec) (x : Char) (h1 : x ∉ t.h.name)
    (h2 : x ∉ [' ', '-', 't', 'r', 'u', 'e', 'f', 'a', 'l', 's'])
    (h3 : ¬ (48 ≤ x.toNat ∧ x.toNat ≤ 57)) : x ∉ renderHeader t := by
  intro hx
  rcases renderHeader_chars t x hx with h | h | h | h | h
  · exact h1 h
  · exact h2 (by simp [h])
  · exact h2 (by simp [h])
  · exact h3 ((isDecimalDigit_iff x).1 h)
  · apply h2
    simp only [List.mem_cons, List.mem_singleton, List.not_mem_nil, or_false] at h ⊢
    tauto

theorem parseLine_renderLine (t : LineSpec) (hw : t.WellFormed) :
    parseLine (renderLine t) = some (buildInterface t.h t.addrs) := by
  have hscan := Sscanf_renderHeader t hw
  obtain ⟨hne, hname, _, _, _, _, hbar, _⟩ := hw
  have hbarh : '|' ∉ renderHeader t :=
    renderHeader_not_mem t '|' (fun h => (hname _ h).2 rfl) (by decide) (by decide)
  obtain ⟨c, cs, e⟩ : ∃ c cs, t.h.name = c :: cs := by
    cases hn : t.h.name with
    | nil => exact absurd hn hne
    | cons c cs => exact ⟨c, cs, rfl⟩
  have hblank : TrimSpace (renderLine t) ≠ [] := by
    apply trimBoth_ne_nil isSpace _ c _ (hname c (by rw [e]; exact List.mem_cons_self _ _)).1
    unfold renderLine renderHeader
    rw [e]
    simp
  have hsplit : Split '|' (renderLine t) = [renderHeader t, t.addrs] := by
    unfold renderLine
    rw [Split_append_cons _ _ _ hbarh, Split_of_not_mem _ _ hbar]
  unfold parseLine
  rw [if_neg hblank, hsplit]
  simp only [hscan]

theorem flagsOf_read (up bc lo pp mc : Bool) :
    (flagsOf up bc lo pp mc &&& FlagUp != 0) = up ∧
      (flagsOf up bc lo pp mc &&& FlagBroadcast != 0) = bc ∧
      (flagsOf up bc lo pp mc &&& FlagLoopback != 0) = lo ∧
      (flagsOf up bc lo pp mc &&& FlagPointToPoint != 0) = pp ∧
      (flagsOf up bc lo pp mc &&& FlagMulticast != 0) = mc := by
  cases up <;> cases bc <;> cases lo <;> cases pp <;> cases mc <;> decide

theorem headerOf_buildInterface (h : Header) (addrPart : List Char) :
    headerOf (buildInterface h addrPart) = h := by
  rw [buildInterface_eq]
  obtain ⟨h1, h2, h3, h4, h5⟩ :=
    flagsOf_read h.up h.broadcast h.loopback h.pointToPoint h.multicast
  unfold headerOf
  simp only [h1, h2, h3, h4, h5]

theorem renderLine_no_newline (t : LineSpec) (hw : t.WellFormed) : '\n' ∉ renderLine t := by
  obtain ⟨_, hname, _, _, _, _, _, hnl⟩ := hw
  have hh : '\n' ∉ renderHeader t :=
    renderHeader_not_mem t '\n'
      (fun h => absurd (hname _ h).1 (by decide)) (by decide) (by decide)
  unfold renderLine
  intro hx
  rcases List.mem_append.1 hx with h | h
  · exact hh h
  · rcases List.mem_cons.1 h with h | h
    · exact absurd h (by decide)
    · exact hnl h

/-- C5 (header round trip): rendering each well-formed tuple as a line
`<name> <index> <mtu> <up> <broadcast> <loopback> <pointToPoint> <multicast> | <addresses>`
and parsing the newline-joined blob yields one record per tuple, in the same order, whose
name, index, mtu and five flag bits are those of the tuple. -/
theorem header_round_trip {ε : Type} (ts : List LineSpec) (hw : ∀ t ∈ ts, t.WellFormed) :
    (getInterfaces (joinLines (ts.map renderLine)) (none : Option ε)).1.elems.map headerOf
        = ts.map LineSpec.h ∧
      (getInterfaces (joinLines (ts.map renderLine)) (none : Option ε)).1.elems
        = ts.map (fun t => buildInterface t.h t.addrs) ∧
      (getInterfaces (joinLines (ts.map renderLine)) (none : Option ε)).2 = none := by
  have hrec : ∀ l : List LineSpec, (∀ t ∈ l, t.WellFormed) →
      (l.map renderLine).filterMap parseLine = l.map (fun t => buildInterface t.h t.addrs) := by
    intro l
    induction l with
    | nil => intro _; rfl
    | cons t l ih =>
      intro hl
      rw [List.map_cons, List.filterMap_cons, parseLine_renderLine t (hl t (List.mem_cons_self _ _)),
        ih (fun x hx => hl x (List.mem_cons_of_mem _ hx))]
      rfl
  have helems : (getInterfaces (joinLines (ts.map renderLine)) (none : Option ε)).1.elems
      = ts.map (fun t => buildInterface t.h t.addrs) := by
    rw [getInterfaces_elems]
    by_cases hne : ts = []
    · subst hne
      show List.filterMap parseLine (Split '\n' []) = []
      simp [Split, parseLine_nil]
    · rw [Split_joinLines _ (by simpa using hne), hrec ts hw]
      intro l hl
      obtain ⟨t, ht, rfl⟩ := List.mem_map.1 hl
      exact renderLine_no_newline t (hw t ht)
  refine ⟨?_, helems, rfl⟩
  rw [helems, List.map_map]
  apply List.map_congr_left
  intro t _
  exact headerOf_buildInterface t.h t.addrs

theorem header_round_trip_witness :
    (∀ t ∈ [(⟨⟨"wlan0".toList, 30, 1500, true, true, false, false, true⟩, 0, 0, 0, 0, 0, 0, 0, 1,
          " 10.1.10.131/24".toList⟩ : LineSpec),
        ⟨⟨"lo".toList, -1, 65536, true, false, true, false, false⟩, 2, 0, 1, 0, 0, 3, 0, 0, []⟩],
        t.WellFormed) ∧
      joinLines ([(⟨⟨"wlan0".toList, 30, 1500, true, true, false, false, true⟩, 0, 0, 0, 0, 0, 0,
          0, 1, " 10.1.10.131/24".toList⟩ : LineSpec),
        ⟨⟨"lo".toList, -1, 65536, true, false, true, false, false⟩, 2, 0, 1, 0, 0, 3, 0, 0,
          []⟩].map renderLine)
        = "wlan0 30 1500 true true false false true | 10.1.10.131/24\nlo   -1 65536  true false true    false false|".toList ∧
      (getInterfaces (joinLines ([(⟨⟨"wlan0".toList, 30, 1500, true, true, false, false, true⟩,
          0, 0, 0, 0, 0, 0, 0, 1, " 10.1.10.131/24".toList⟩ : LineSpec),
        ⟨⟨"lo".toList, -1, 65536, true, false, true, false, false⟩, 2, 0, 1, 0, 0, 3, 0, 0,
          []⟩].map renderLine)) (none : Option Unit)).1.elems.map headerOf
        = [⟨"wlan0".toList, 30, 1500, true, true, false, false, true⟩,
          ⟨"lo".toList, -1, 65536, true, false, true, false, false⟩] :=
  ⟨by decide, by decide,
    (header_round_trip
      [(⟨⟨"wlan0".toList, 30, 1500, true, true, false, false, true⟩, 0, 0, 0, 0, 0, 0, 0, 1,
          " 10.1.10.131/24".toList⟩ : LineSpec),
        ⟨⟨"lo".toList, -1, 65536, true, false, true, false, false⟩, 2, 0, 1, 0, 0, 3, 0, 0, []⟩]
      (by decide)).1⟩

/-! ## Tokens that carry a zone -/

theorem withoutZone_Zone (ip : Addr) : ip.withoutZone.Zone = [] := by
  rcases ip with ⟨bytes, z⟩
  cases z <;> simp [Addr.withoutZone, Addr.Is6, Addr.Zone]

theorem ParsePrefix_Zone (tok : List Char) (pfx : Prefix) (h : ParsePrefix tok = some pfx) :
    pfx.Addr.Zone = [] := by
  unfold ParsePrefix at h
  repeat' split at h
  all_goals
    first
    | contradiction
    | (simp only [Option.some.injEq] at h
       rw [← h]
       exact withoutZone_Zone _)

theorem parseIPv4Loop_none_of_mem (x : Char) (hx1 : isDecimalDigit x = false) (hx2 : x ≠ '.')
    (s : List Char) (hs : x ∈ s) :
    ∀ prev fields val digLen, parseIPv4Loop prev fields val digLen s = none := by
  induction s with
  | nil => exact absurd hs (List.not_mem_nil x)
  | cons c cs ih =>
    intro prev fields val digLen
    rw [parseIPv4Loop]
    by_cases hd : isDecimalDigit c = true
    · have hne : x ≠ c := fun e => by rw [e, hd] at hx1; exact absurd hx1 (by simp)
      have hm : x ∈ cs := (List.mem_cons.1 hs).resolve_left hne
      simp only [hd, if_true]
      split
      · rfl
      · split
        · rfl
        · exact ih hm _ _ _ _
    · simp only [hd, Bool.false_eq_true, if_false]
      by_cases hc : c = '.'
      · have hne : x ≠ c := fun e => hx2 (e.trans hc)
        have hm : x ∈ cs := (List.mem_cons.1 hs).resolve_left hne
        simp only [hc, if_true]
        split
        · rfl
        · split
          · rfl
          · exact ih hm _ _ _ _
      · simp only [hc, if_false]

theorem WithZone_AddrFrom16 (ip : List Nat) (zone : List Char) :
    (AddrFrom16 ip).WithZone zone = ⟨ip, AddrZ.z6 zone⟩ := by
  simp [Addr.WithZone, AddrFrom16, Addr.Is6]

theorem parseIPv6_zone (s : List Char) (hs : '%' ∈ s) (ip : Addr) (h : parseIPv6 s = some ip) :
    ∃ zone, zone ≠ [] ∧ ip.z = AddrZ.z6 zone := by
  have hc : s.contains '%' = true := by simpa using hs
  unfold parseIPv6 at h
  simp only [hc, true_and, WithZone_AddrFrom16] at h
  by_cases hz : (s.dropWhile (fun c => c ≠ '%')).tail = []
  · rw [if_pos hz] at h
    contradiction
  · rw [if_neg hz] at h
    repeat' split at h
    all_goals
      first
      | contradiction
      | (simp only [Option.some.injEq] at h
         exact ⟨_, hz, by rw [← h]⟩)

theorem ParseAddr_zone (a : List Char) (ha : '%' ∈ a) (ip : Addr) (h : ParseAddr a = some ip) :
    ip.Is6 = true ∧ ip.z ≠ AddrZ.z6 [] := by
  unfold ParseAddr at h
  split at h
  · exact absurd h (by simp)
  · split at h
    · unfold parseIPv4 at h
      rw [parseIPv4Loop_none_of_mem '%' (by decide) (by decide) a ha] at h
      exact absurd h (by simp)
    · split at h
      · obtain ⟨zone, hz, e⟩ := parseIPv6_zone a ha ip h
        simp [Addr.Is6, e, hz]
      · exact absurd h (by simp)

theorem ParseInt_none_of_mem (b : List Char) (hb : '%' ∈ b) : ParseInt b = none := by
  have hu : ∀ s : List Char, '%' ∈ s → ParseUint s = none := by
    intro s hs
    unfold ParseUint
    split
    · rfl
    · have : s.all isDecimalDigit = false := by
        rw [List.all_eq_false]
        exact ⟨'%', hs, by decide⟩
      simp [this]
  unfold ParseInt
  split
  · rfl
  · cases b with
    | nil => exact absurd hb (List.not_mem_nil _)
    | cons c cs =>
      by_cases hsign : c = '+' ∨ c = '-'
      · have hm : '%' ∈ cs := by
          rcases List.mem_cons.1 hb with h | h
          · rcases hsign with h1 | h1
            · rw [h1] at h; exact absurd h (by decide)
            · rw [h1] at h; exact absurd h (by decide)
          · exact h
        simp [hsign, hu cs hm]
      · simp [hsign, hu (c :: cs) hb]

theorem cutLast_eq_some (sep : Char) (s a b : List Char) (h : cutLast sep s = some (a, b)) :
    s = a ++ sep :: b := by
  induction s generalizing a b with
  | nil => exact absurd h (by simp [cutLast])
  | cons c cs ih =>
    rw [cutLast] at h
    split at h
    · rename_i a1 b1 e
      simp only [Option.some.injEq, Prod.mk.injEq] at h
      obtain ⟨h1, h2⟩ := h
      subst h1 h2
      rw [List.cons_append, ← ih a1 _ e]
    · split at h
      · rename_i hc
        simp only [Option.some.injEq, Prod.mk.injEq] at h
        rw [← h.1, ← h.2, hc]
        rfl
      · exact absurd h (by simp)

/-- A token that contains `%` is rejected by `ParsePrefix`, whatever else it holds. -/
theorem ParsePrefix_none_of_zone (tok : List Char) (h : '%' ∈ tok) : ParsePrefix tok = none := by
  unfold ParsePrefix
  split
  · rfl
  · rename_i a b hcut
    have e := cutLast_eq_some '/' tok a b hcut
    rw [e] at h
    have hab : '%' ∈ a ∨ '%' ∈ b := by
      rcases List.mem_append.1 h with h1 | h1
      · exact Or.inl h1
      · rcases List.mem_cons.1 h1 with h2 | h2
        · exact absurd h2 (by decide)
        · exact Or.inr h2
    split
    · rfl
    · rename_i ip hip
      rcases hab with ha | hb
      · obtain ⟨h6, hz⟩ := ParseAddr_zone a ha ip hip
        simp [h6, hz]
      · rw [ParseInt_none_of_mem b hb]
        split
        · rfl
        · split <;> rfl

/-- C7 (evaluation of the code): the text `fe80::2f60:2c82:4163:8389%wlan0` parses as an
address with zone `wlan0`, but `ParsePrefix` rejects the token
`fe80::2f60:2c82:4163:8389%wlan0/64`, so it yields no address entry, while without the
zone the token yields the 16 bytes with an empty zone. In general a token that contains
`%` yields no entry, and every entry the code produces has the empty zone. -/
theorem zoned_token_yields_no_entry :
    ParseAddr "fe80::2f60:2c82:4163:8389%wlan0".toList
        = some ⟨[0xfe, 0x80, 0, 0, 0, 0, 0, 0, 0x2f, 0x60, 0x2c, 0x82, 0x41, 0x63, 0x83, 0x89],
            AddrZ.z6 "wlan0".toList⟩ ∧
      ParsePrefix "fe80::2f60:2c82:4163:8389%wlan0/64".toList = none ∧
      addrEntry "fe80::2f60:2c82:4163:8389%wlan0/64".toList = none ∧
      (parseLine
          "wlan0 30 1500 true true false false true | fe80::2f60:2c82:4163:8389%wlan0/64".toList).map
          Interface.AltAddrs = some (some []) ∧
      addrEntry "fe80::2f60:2c82:4163:8389/64".toList
        = some ⟨[0xfe, 0x80, 0, 0, 0, 0, 0, 0, 0x2f, 0x60, 0x2c, 0x82, 0x41, 0x63, 0x83, 0x89],
            []⟩ ∧
      (∀ tok : List Char, '%' ∈ tok → addrEntry tok = none) ∧
      ∀ (tok : List Char) (e : IPAddr), addrEntry tok = some e → e.Zone = [] := by
  refine ⟨by decide, by decide, by decide, by decide, by decide, ?_, ?_⟩
  · intro tok h
    simp [addrEntry, ParsePrefix_none_of_zone tok h]
  · intro tok e h
    unfold addrEntry at h
    cases hp : ParsePrefix tok with
    | none => rw [hp] at h; exact absurd h (by simp)
    | some pfx =>
      rw [hp] at h
      simp only [Option.map_some', Option.some.injEq] at h
      rw [← h]
      exact ParsePrefix_Zone tok pfx hp

/-! ## Independence of lines -/

theorem Split_cons_of_ne (sep c : Char) (cs h : List Char) (t : List (List Char))
    (hc : c ≠ sep) (hs : Split sep cs = h :: t) : Split sep (c :: cs) = (c :: h) :: t := by
  simp [Split, hc, hs]

theorem Split_append_sep (sep : Char) (a b : List Char) :
    Split sep (a ++ sep :: b) = Split sep a ++ Split sep b := by
  induction a with
  | nil => simp [Split]
  | cons c a ih =>
    by_cases hc : c = sep
    · simp [Split, hc, ih]
    · cases hs : Split sep a with
      | nil => exact absurd hs (Split_ne_nil sep a)
      | cons h t =>
        rw [hs] at ih
        rw [List.cons_append, Split_cons_of_ne sep c _ h (t ++ Split sep b) hc ih,
          Split_cons_of_ne sep c _ h t hc hs]
        rfl

theorem length_Split (sep : Char) (s : List Char) :
    (Split sep s).length = s.count sep + 1 := by
  induction s with
  | nil => rfl
  | cons c cs ih =>
    by_cases hc : c = sep
    · subst hc
      simp [Split, ih]
    · have hne : (c == sep) = false := by simpa using hc
      unfold Split
      simp only [hc, if_false]
      cases hs : Split sep cs with
      | nil => exact absurd hs (Split_ne_nil sep cs)
      | cons h t =>
        rw [hs] at ih
        rw [List.count_cons, hne]
        simpa using ih

theorem lineStep_of_none (acc : Slice Interface) (l : List Char) (h : parseLine l = none) :
    lineStep acc l = acc := by
  simp [lineStep, h]

/-- Removing from a blob a line that yields no record does not change the result. -/
theorem getInterfaces_drop_line {ε : Type} (pre post : List (List Char)) (bad : List Char)
    (hnl : ∀ l ∈ pre ++ bad :: post, '\n' ∉ l) (hb : parseLine bad = none) :
    getInterfaces (joinLines (pre ++ bad :: post)) (none : Option ε)
      = getInterfaces (joinLines (pre ++ post)) (none : Option ε) := by
  have h1 : Split '\n' (joinLines (pre ++ bad :: post)) = pre ++ bad :: post :=
    Split_joinLines _ (by simp) hnl
  have hfold : (pre ++ bad :: post).foldl lineStep none = (pre ++ post).foldl lineStep none := by
    rw [List.foldl_append, List.foldl_cons, lineStep_of_none _ _ hb, List.foldl_append]
  have h2 : (Split '\n' (joinLines (pre ++ post))).foldl lineStep none
      = (pre ++ post).foldl lineStep none := by
    by_cases hne : pre ++ post = []
    · rw [hne]
      exact lineStep_of_none none [] parseLine_nil
    · rw [Split_joinLines _ hne]
      intro l hl
      apply hnl l
      rcases List.mem_append.1 hl with h | h
      · exact List.mem_append_left _ h
      · exact List.mem_append_right _ (List.mem_cons_of_mem _ h)
  show ((Split '\n' (joinLines (pre ++ bad :: post))).foldl lineStep none, none) = (_, none)
  rw [h1, hfold, ← h2]

/-- C14: a line that contains no `|` or at least two `|` yields no record, and its
presence in a blob does not change the result: the records of the other lines are those
of the blob without it. -/
theorem line_without_single_bar_skipped (l : List Char)
    (hbar : l.count '|' = 0 ∨ 2 ≤ l.count '|') :
    parseLine l = none ∧
      ∀ (ε : Type) (pre post : List (List Char)), (∀ x ∈ pre ++ l :: post, '\n' ∉ x) →
        getInterfaces (joinLines (pre ++ l :: post)) (none : Option ε)
            = getInterfaces (joinLines (pre ++ post)) (none : Option ε) ∧
          (getInterfaces (joinLines (pre ++ l :: post)) (none : Option ε)).1.elems
            = (pre ++ post).filterMap parseLine := by
  have hlen : (Split '|' l).length ≠ 2 := by
    rw [length_Split]
    omega
  have hnone : parseLine l = none := by
    cases hp : parseLine l with
    | none => rfl
    | some r =>
      obtain ⟨_, header, addrPart, _, hs, _⟩ := (parseLine_eq_some l r).1 hp
      rw [hs] at hlen
      exact absurd rfl hlen
  refine ⟨hnone, ?_⟩
  intro ε pre post hnl
  refine ⟨getInterfaces_drop_line pre post l hnl hnone, ?_⟩
  rw [getInterfaces_elems, Split_joinLines _ (by simp) hnl, List.filterMap_append,
    List.filterMap_cons, hnone, List.filterMap_append]

theorem line_without_single_bar_skipped_witness :
    ("wlan0 30 1500 true true false false true 10.1.10.131/24".toList.count '|' = 0 ∨
        2 ≤ "wlan0 30 1500 true true false false true 10.1.10.131/24".toList.count '|') ∧
      parseLine "wlan0 30 1500 true true false false true 10.1.10.131/24".toList = none ∧
      parseLine "lo 1 65536 true false true false false | 127.0.0.1/8 | ::1/128".toList = none :=
  ⟨by decide,
    (line_without_single_bar_skipped
      "wlan0 30 1500 true true false false true 10.1.10.131/24".toList (by decide)).1,
    (line_without_single_bar_skipped
      "lo 1 65536 true false true false false | 127.0.0.1/8 | ::1/128".toList (by decide)).1⟩

/-- C17: lines are parsed independently of one another: the records of a blob `a`, a
newline and a blob `b` are the records of `a` followed by the records of `b`. -/
theorem getInterfaces_append_blobs {ε : Type} (a b : List Char) :
    (getInterfaces (a ++ '\n' :: b) (none : Option ε)).1.elems
      = (getInterfaces a (none : Option ε)).1.elems ++
        (getInterfaces b (none : Option ε)).1.elems := by
  rw [getInterfaces_elems, getInterfaces_elems, getInterfaces_elems, Split_append_sep,
    List.filterMap_append]

/-! ## The address part of a line -/

/-- A line made of a header free of `|`, a bar and an address part free of `|` yields the
record built from what `Sscanf` reads in the header, or nothing when the scan fails. -/
theorem parseLine_bar (header part : List Char) (hh : '|' ∉ header) (hp : '|' ∉ part) :
    parseLine (header ++ '|' :: part) = (Sscanf header).map fun h => buildInterface h part := by
  have hblank : TrimSpace (header ++ '|' :: part) ≠ [] :=
    trimBoth_ne_nil isSpace _ '|' (by simp) (by decide)
  have hsplit : Split '|' (header ++ '|' :: part) = [header, part] := by
    rw [Split_append_cons _ _ _ hh, Split_of_not_mem _ _ hp]
  unfold parseLine
  rw [if_neg hblank, hsplit]
  cases hs : Sscanf header <;> simp [hs]

theorem trimBoth_append_left (p : Char → Bool) (pre s : List Char)
    (h : ∀ c ∈ pre, p c = true) : trimBoth p (pre ++ s) = trimBoth p s := by
  unfold trimBoth
  rw [List.dropWhile_append_of_pos h]

theorem trimBoth_append_right (p : Char → Bool) (s post : List Char)
    (h : ∀ c ∈ post, p c = true) : trimBoth p (s ++ post) = trimBoth p s := by
  have hpost : post.dropWhile p = [] := List.dropWhile_eq_nil_iff.2 h
  unfold trimBoth
  rw [List.dropWhile_append]
  split
  · rename_i he
    have : s.dropWhile p = [] := by simpa using he
    rw [hpost, this]
  · rw [List.reverse_append,
      List.dropWhile_append_of_pos (fun c hc => h c (List.mem_reverse.1 hc))]

theorem addrEntry_nil : addrEntry [] = none := by decide

theorem filterMap_addrEntry_blank_cons (s : List Char) :
    (Split ' ' (' ' :: s)).filterMap addrEntry = (Split ' ' s).filterMap addrEntry := by
  simp [Split, addrEntry_nil]

theorem filterMap_addrEntry_snoc_blank (s : List Char) :
    (Split ' ' (s ++ [' '])).filterMap addrEntry = (Split ' ' s).filterMap addrEntry := by
  rw [Split_append_sep]
  simp [Split, addrEntry_nil]

theorem filterMap_addrEntry_dropWhile (p : Char → Bool) (s : List Char)
    (hp : ∀ c ∈ s, p c = true → c = ' ') :
    (Split ' ' (s.dropWhile p)).filterMap addrEntry = (Split ' ' s).filterMap addrEntry := by
  induction s with
  | nil => rfl
  | cons c cs ih =>
    by_cases hc : p c = true
    · rw [List.dropWhile_cons_of_pos hc, ih (fun x hx => hp x (List.mem_cons_of_mem _ hx)),
        hp c (List.mem_cons_self _ _) hc, filterMap_addrEntry_blank_cons]
    · rw [List.dropWhile_cons_of_neg hc]

theorem filterMap_addrEntry_rdropWhile (p : Char → Bool) (r : List Char)
    (hp : ∀ c ∈ r, p c = true → c = ' ') :
    (Split ' ' (r.dropWhile p).reverse).filterMap addrEntry
      = (Split ' ' r.reverse).filterMap addrEntry := by
  induction r with
  | nil => rfl
  | cons c cs ih =>
    by_cases hc : p c = true
    · rw [List.dropWhile_cons_of_pos hc, ih (fun x hx => hp x (List.mem_cons_of_mem _ hx)),
        hp c (List.mem_cons_self _ _) hc, List.reverse_cons, filterMap_addrEntry_snoc_blank]
    · rw [List.dropWhile_cons_of_neg hc]

/-- Trimming blanks off an address part that holds no newline does not change the entries
its tokens give: the tokens lost are empty. -/
theorem filterMap_addrEntry_Trim (s : List Char) (hnl : '\n' ∉ s) :
    (Split ' ' (Trim s [' ', '\n'])).filterMap addrEntry = (Split ' ' s).filterMap addrEntry := by
  have hp : ∀ c ∈ s, ([' ', '\n'].contains c) = true → c = ' ' := by
    intro c hc h
    have hne : c ≠ '\n' := fun e => hnl (e ▸ hc)
    simpa [hne] using h
  have hsub : ∀ c ∈ (s.dropWhile fun c => [' ', '\n'].contains c).reverse,
      ([' ', '\n'].contains c) = true → c = ' ' := by
    intro c hc
    exact hp c ((List.dropWhile_sublist _).subset (List.mem_reverse.1 hc))
  unfold Trim trimBoth
  rw [filterMap_addrEntry_rdropWhile _ _ hsub, List.reverse_reverse,
    filterMap_addrEntry_dropWhile _ _ hp]

/-- C15: a line with a header that scans and any address part (free of `|`; a line holds
no newline) yields a record, and the address list of the record holds exactly the entries
of the tokens between single blanks that `ParsePrefix` accepts, in their order; the other
tokens, the empty ones between consecutive blanks included, add nothing. -/
theorem address_list_is_parsed_tokens (header addrPart : List Char) (h : Header)
    (hscan : Sscanf header = some h) (hh : '|' ∉ header) (hbar : '|' ∉ addrPart)
    (hnl : '\n' ∉ addrPart) :
    parseLine (header ++ '|' :: addrPart)
        = some ⟨h.name, h.index, h.mtu,
            flagsOf h.up h.broadcast h.loopback h.pointToPoint h.multicast,
            some ((Split ' ' addrPart).filterMap addrEntry)⟩ ∧
      (∀ tok ∈ Split ' ' addrPart, ∀ e, addrEntry tok = some e →
        e ∈ (buildInterface h addrPart).AltAddrs.elems) ∧
      ∀ e ∈ (buildInterface h addrPart).AltAddrs.elems,
        ∃ tok ∈ Split ' ' addrPart, addrEntry tok = some e := by
  have hb : buildInterface h addrPart
      = ⟨h.name, h.index, h.mtu, flagsOf h.up h.broadcast h.loopback h.pointToPoint h.multicast,
          some ((Split ' ' addrPart).filterMap addrEntry)⟩ := by
    rw [buildInterface_eq, filterMap_addrEntry_Trim addrPart hnl]
  refine ⟨?_, ?_, ?_⟩
  · rw [parseLine_bar header addrPart hh hbar, hscan, Option.map_some', hb]
  · intro tok htok e he
    rw [hb]
    exact List.mem_filterMap.2 ⟨tok, htok, he⟩
  · intro e he
    rw [hb] at he
    exact List.mem_filterMap.1 he

theorem address_list_is_parsed_tokens_witness :
    Sscanf "eth0 2 1500 true true false false true ".toList
        = some ⟨"eth0".toList, 2, 1500, true, true, false, false, true⟩ ∧
      parseLine ("eth0 2 1500 true true false false true ".toList ++
          '|' :: "  10.0.0.1/8  bogus 1.2.3.4/33 ::1/128 ".toList)
        = some ⟨"eth0".toList, 2, 1500, 19,
            some [⟨[10, 0, 0, 1], []⟩, ⟨[0, 0, 0, 0, 0, 0, 0, 0, 0, 0, 0, 0, 0, 0, 0, 1], []⟩]⟩ :=
  ⟨by decide,
    (address_list_is_parsed_tokens "eth0 2 1500 true true false false true ".toList
      "  10.0.0.1/8  bogus 1.2.3.4/33 ::1/128 ".toList
      ⟨"eth0".toList, 2, 1500, true, true, false, false, true⟩ (by decide) (by decide)
      (by decide) (by decide)).1.trans (by decide)⟩

/-- C16 as stated fails: a carriage return after the address part, or a tab before it, is
not trimmed and makes the neighbouring token unparsable. -/
theorem trim_keeps_tab_and_carriage_return :
    (parseLine "eth0 2 1500 true true false false true | 10.0.0.1/8".toList).map
        Interface.AltAddrs = some (some [⟨[10, 0, 0, 1], []⟩]) ∧
      (parseLine "eth0 2 1500 true true false false true | 10.0.0.1/8\r".toList).map
        Interface.AltAddrs = some (some []) ∧
      (parseLine "eth0 2 1500 true true false false true |\t10.0.0.1/8".toList).map
        Interface.AltAddrs = some (some []) := by
  decide

/-- C16 (amended): the address part is trimmed of surrounding blanks and newlines before
it is split into tokens: adding blanks or newlines in front of or behind an address part
leaves the record, and so its address list, unchanged. Tabs and carriage returns are not
trimmed. -/
theorem address_part_trimmed_of_blanks (h : Header) (s pre post : List Char)
    (hpre : ∀ c ∈ pre, c = ' ' ∨ c = '\n') (hpost : ∀ c ∈ post, c = ' ' ∨ c = '\n') :
    buildInterface h (pre ++ s ++ post) = buildInterface h s ∧
      (buildInterface h (pre ++ s ++ post)).AltAddrs = (buildInterface h s).AltAddrs ∧
      ∀ header : List Char, '|' ∉ header → '|' ∉ s →
        parseLine (header ++ '|' :: (pre ++ s ++ post)) = parseLine (header ++ '|' :: s) := by
  have hcut : ∀ l : List Char, (∀ c ∈ l, c = ' ' ∨ c = '\n') →
      ∀ c ∈ l, ([' ', '\n'].contains c) = true := by
    intro l hl c hc
    rcases hl c hc with e | e <;> rw [e] <;> decide
  have htrim : Trim (pre ++ s ++ post) [' ', '\n'] = Trim s [' ', '\n'] := by
    unfold Trim
    rw [trimBoth_append_right _ _ _ (hcut post hpost),
      trimBoth_append_left _ _ _ (hcut pre hpre)]
  have hb : buildInterface h (pre ++ s ++ post) = buildInterface h s := by
    rw [buildInterface_eq, buildInterface_eq, htrim]
  refine ⟨hb, by rw [hb], ?_⟩
  intro header hh hs
  have hbar : '|' ∉ pre ++ s ++ post := by
    intro hm
    rcases List.mem_append.1 hm with h1 | h1
    · rcases List.mem_append.1 h1 with h2 | h2
      · rcases hpre _ h2 with e | e <;> exact absurd e (by decide)
      · exact hs h2
    · rcases hpost _ h1 with e | e <;> exact absurd e (by decide)
  rw [parseLine_bar header _ hh hbar, parseLine_bar header _ hh hs]
  cases hsc : Sscanf header with
  | none => rfl
  | some h1 =>
    have hb1 : buildInterface h1 (pre ++ s ++ post) = buildInterface h1 s := by
      rw [buildInterface_eq, buildInterface_eq, htrim]
    rw [Option.map_some', Option.map_some', hb1]

theorem address_part_trimmed_of_blanks_witness :
    (∀ c ∈ "  ".toList, c = ' ' ∨ c = '\n') ∧ (∀ c ∈ " \n ".toList, c = ' ' ∨ c = '\n') ∧
      buildInterface ⟨"eth0".toList, 2, 1500, true, true, false, false, true⟩
          ("  ".toList ++ "10.0.0.1/8 ::1/128".toList ++ " \n ".toList)
        = buildInterface ⟨"eth0".toList, 2, 1500, true, true, false, false, true⟩
          "10.0.0.1/8 ::1/128".toList :=
  ⟨by decide, by decide,
    (address_part_trimmed_of_blanks ⟨"eth0".toList, 2, 1500, true, true, false, false, true⟩
      "10.0.0.1/8 ::1/128".toList "  ".toList " \n ".toList (by decide) (by decide)).1⟩

/-! ## The prefix length -/

theorem ParsePrefix_cut (a b : List Char) (hb : '/' ∉ b) (p : Prefix)
    (h : ParsePrefix (a ++ '/' :: b) = some p) :
    ∃ ip bits, ParseAddr a = some ip ∧ p = PrefixFrom ip bits := by
  unfold ParsePrefix at h
  rw [cutLast_append '/' a b hb] at h
  simp only at h
  cases hip : ParseAddr a with
  | none => rw [hip] at h; contradiction
  | some ip =>
    rw [hip] at h
    simp only at h
    repeat' split at h
    all_goals
      first
      | contradiction
      | (simp only [Option.some.injEq] at h
         exact ⟨ip, _, rfl, h.symm⟩)

/-- The entry of a token `a/b` depends on the address text `a` only. -/
theorem addrEntry_cut (a b : List Char) (hb : '/' ∉ b) (e : IPAddr)
    (h : addrEntry (a ++ '/' :: b) = some e) :
    ∃ ip, ParseAddr a = some ip ∧
      e = ⟨if ip.withoutZone.Is4 then ip.withoutZone.As4 else ip.withoutZone.As16,
        ip.withoutZone.Zone⟩ := by
  unfold addrEntry at h
  cases hp : ParsePrefix (a ++ '/' :: b) with
  | none => rw [hp] at h; contradiction
  | some p =>
    rw [hp] at h
    obtain ⟨ip, bits, hip, rfl⟩ := ParsePrefix_cut a b hb p hp
    simp only [Option.map_some', Option.some.injEq] at h
    exact ⟨ip, hip, h.symm⟩

theorem addrEntry_cidrToken_eq (a : List Char) (n m : Nat) (e1 e2 : IPAddr)
    (h1 : addrEntry (cidrToken a n) = some e1) (h2 : addrEntry (cidrToken a m) = some e2) :
    e1 = e2 := by
  obtain ⟨ip1, hip1, rfl⟩ := addrEntry_cut a (decimal n) (decimal_not_mem n '/' (by decide)) e1 h1
  obtain ⟨ip2, hip2, rfl⟩ := addrEntry_cut a (decimal m) (decimal_not_mem m '/' (by decide)) e2 h2
  rw [hip1] at hip2
  simp only [Option.some.injEq] at hip2
  rw [hip2]

theorem addrEntry_eq_of_same (t1 t2 : List Char) (h : SameUpToPrefixLength t1 t2) :
    addrEntry t1 = addrEntry t2 := by
  rcases h with h | ⟨a, n, m, rfl, rfl, h1, h2⟩
  · rw [h]
  · cases he1 : addrEntry (cidrToken a n) with
    | none => rw [he1] at h1; contradiction
    | some e1 =>
      cases he2 : addrEntry (cidrToken a m) with
      | none => rw [he2] at h2; contradiction
      | some e2 => rw [addrEntry_cidrToken_eq a n m e1 e2 he1 he2]

theorem filterMap_addrEntry_of_same (l1 l2 : List (List Char))
    (h : List.Forall₂ SameUpToPrefixLength l1 l2) :
    l1.filterMap addrEntry = l2.filterMap addrEntry := by
  induction h with
  | nil => rfl
  | cons hab _ ih =>
    rw [List.filterMap_cons, List.filterMap_cons, addrEntry_eq_of_same _ _ hab, ih]

/-- C18: the prefix length of an address token is checked but not kept: when `a/n` and
`a/m` are both accepted they yield the same address entry (bytes and zone), so two address
parts whose tokens differ only in such prefix lengths give equal records, and so do two
lines that differ only there. -/
theorem prefix_length_not_retained (a : List Char) (n m : Nat) (e1 e2 : IPAddr)
    (h1 : addrEntry (cidrToken a n) = some e1) (h2 : addrEntry (cidrToken a m) = some e2) :
    e1 = e2 ∧
      (∀ (h : Header) (part1 part2 : List Char),
        List.Forall₂ SameUpToPrefixLength (Split ' ' (Trim part1 [' ', '\n']))
            (Split ' ' (Trim part2 [' ', '\n'])) →
          buildInterface h part1 = buildInterface h part2) ∧
      ∀ (header part1 part2 : List Char), '|' ∉ header → '|' ∉ part1 → '|' ∉ part2 →
        List.Forall₂ SameUpToPrefixLength (Split ' ' (Trim part1 [' ', '\n']))
            (Split ' ' (Trim part2 [' ', '\n'])) →
          parseLine (header ++ '|' :: part1) = parseLine (header ++ '|' :: part2) := by
  have hb : ∀ (h : Header) (part1 part2 : List Char),
      List.Forall₂ SameUpToPrefixLength (Split ' ' (Trim part1 [' ', '\n']))
          (Split ' ' (Trim part2 [' ', '\n'])) →
        buildInterface h part1 = buildInterface h part2 := by
    intro h part1 part2 hsame
    rw [buildInterface_eq, buildInterface_eq, filterMap_addrEntry_of_same _ _ hsame]
  refine ⟨addrEntry_cidrToken_eq a n m e1 e2 h1 h2, hb, ?_⟩
  intro header part1 part2 hh hp1 hp2 hsame
  rw [parseLine_bar header part1 hh hp1, parseLine_bar header part2 hh hp2]
  cases hs : Sscanf header with
  | none => rfl
  | some h => rw [Option.map_some', Option.map_some', hb h part1 part2 hsame]

theorem prefix_length_not_retained_witness :
    addrEntry (cidrToken "10.1.10.131".toList 24) = some ⟨[10, 1, 10, 131], []⟩ ∧
      addrEntry (cidrToken "10.1.10.131".toList 8) = some ⟨[10, 1, 10, 131], []⟩ ∧
      (⟨[10, 1, 10, 131], []⟩ : IPAddr) = ⟨[10, 1, 10, 131], []⟩ ∧
      parseLine ("eth0 2 1500 true true false false true ".toList ++
          '|' :: " 10.1.10.131/24 ::1/128".toList)
        = parseLine ("eth0 2 1500 true true false false true ".toList ++
          '|' :: " 10.1.10.131/8 ::1/128".toList) :=
  ⟨by decide, by decide,
    (prefix_length_not_retained "10.1.10.131".toList 24 8 ⟨[10, 1, 10, 131], []⟩
      ⟨[10, 1, 10, 131], []⟩ (by decide) (by decide)).1,
    (prefix_length_not_retained "10.1.10.131".toList 24 8 ⟨[10, 1, 10, 131], []⟩
      ⟨[10, 1, 10, 131], []⟩ (by decide) (by decide)).2.2
      "eth0 2 1500 true true false false true ".toList " 10.1.10.131/24 ::1/128".toList
      " 10.1.10.131/8 ::1/128".toList (by decide) (by decide) (by decide)
      (List.Forall₂.cons (Or.inr ⟨"10.1.10.131".toList, 24, 8, by decide, by decide, by decide,
        by decide⟩) (List.Forall₂.cons (Or.inl rfl) List.Forall₂.nil))⟩

/-! ## The registration -/

theorem Split_joinWith (sep : Char) (ls : List (List Char)) (hne : ls ≠ [])
    (h : ∀ l ∈ ls, sep ∉ l) : Split sep (joinWith sep ls) = ls := by
  induction ls with
  | nil => exact absurd rfl hne
  | cons l ls ih =>
    cases ls with
    | nil => exact Split_of_not_mem _ _ (h l (List.mem_cons_self _ _))
    | cons l1 ls =>
      show Split sep (l ++ sep :: joinWith sep (l1 :: ls)) = _
      rw [Split_append_cons _ _ _ (h l (List.mem_cons_self _ _)),
        ih (by simp) (fun x hx => h x (List.mem_cons_of_mem _ hx))]

theorem joinWith_snoc (sep : Char) (ls : List (List Char)) (hne : ls ≠ []) (t : List Char) :
    joinWith sep (ls ++ [t]) = joinWith sep ls ++ sep :: t := by
  induction ls with
  | nil => exact absurd rfl hne
  | cons l ls ih =>
    cases ls with
    | nil => rfl
    | cons l1 ls =>
      show l ++ sep :: joinWith sep ((l1 :: ls) ++ [t]) = (l ++ sep :: joinWith sep (l1 :: ls)) ++ _
      rw [ih (by simp)]
      simp

theorem foldl_cleanStep_plain (rooted : Bool) (ls out : List (List Char))
    (h : ∀ l ∈ ls, l ≠ [] ∧ l ≠ ['.'] ∧ l ≠ ['.', '.']) :
    ls.foldl (cleanStep rooted) out = ls.reverse ++ out := by
  induction ls generalizing out with
  | nil => rfl
  | cons l ls ih =>
    obtain ⟨h1, h2, h3⟩ := h l (List.mem_cons_self _ _)
    rw [List.foldl_cons, ih _ (fun x hx => h x (List.mem_cons_of_mem _ hx))]
    simp [cleanStep, h1, h2, h3]

/-- For an absolute path made of plain elements, `Join` appends a slash and the name. -/
theorem Join_plain (comps : List (List Char)) (name : List Char) (hne : comps ≠ [])
    (h : ∀ l ∈ comps ++ [name], '/' ∉ l ∧ l ≠ [] ∧ l ≠ ['.'] ∧ l ≠ ['.', '.']) :
    Join ('/' :: joinWith '/' comps) name = ('/' :: joinWith '/' comps) ++ '/' :: name := by
  have hj : ('/' :: joinWith '/' comps) ++ '/' :: name = '/' :: joinWith '/' (comps ++ [name]) := by
    rw [joinWith_snoc '/' comps hne name]
    rfl
  have hsplit : Split '/' ('/' :: joinWith '/' (comps ++ [name])) = [] :: (comps ++ [name]) := by
    have := Split_joinWith '/' (comps ++ [name]) (by simp) (fun l hl => (h l hl).1)
    simp [Split, this]
  have hfold : (([] : List Char) :: (comps ++ [name])).foldl (cleanStep true) []
      = (comps ++ [name]).reverse := by
    rw [List.foldl_cons]
    have : cleanStep true [] [] = [] := by simp [cleanStep]
    rw [this, foldl_cleanStep_plain true _ [] (fun l hl => (h l hl).2)]
    simp
  unfold Join
  rw [if_pos (by simp), hj]
  unfold Clean
  rw [if_neg (by simp)]
  simp only [List.head?_cons, decide_True, if_true, hsplit, hfold, List.reverse_reverse]

/-- C11: `TsnetRegisterAndroidInterface` returns 0 or -1. It returns 0 exactly when every
setup step succeeds (obtaining the JVM, `getCacheDir`, `getAbsolutePath`, creating the log
directory), and then its effects are, in this order, creating the directory
`Join(cachePath, "ts-logs")`, setting `TS_LOGS_DIR` to it, and registering the getter; the
directory is `<cache path>/ts-logs` for an absolute cache path of plain elements. When a
step fails it returns -1 with no effect at all: nothing is set and no getter is
registered. -/
theorem register_after_setup {J O : Type} (p : Platform J O) (appCtx : O) :
    ((TsnetRegisterAndroidInterface p appCtx).1 = 0 ∨
        (TsnetRegisterAndroidInterface p appCtx).1 = -1) ∧
      ((TsnetRegisterAndroidInterface p appCtx).1 = 0 ↔
        ∃ jvm cacheDir cacheString, p.GetJVM = some jvm ∧
          p.CallObjectMethod appCtx "getCacheDir".toList = some cacheDir ∧
          p.CallObjectMethod cacheDir "getAbsolutePath".toList = some cacheString ∧
          MkdirAll p (Join (p.GoString cacheString) "ts-logs".toList) = true) ∧
      (∀ jvm cacheDir cacheString, p.GetJVM = some jvm →
        p.CallObjectMethod appCtx "getCacheDir".toList = some cacheDir →
        p.CallObjectMethod cacheDir "getAbsolutePath".toList = some cacheString →
        MkdirAll p (Join (p.GoString cacheString) "ts-logs".toList) = true →
        TsnetRegisterAndroidInterface p appCtx
          = (0, [Effect.MkdirAll (Join (p.GoString cacheString) "ts-logs".toList),
              Effect.Setenv "TS_LOGS_DIR".toList (Join (p.GoString cacheString) "ts-logs".toList),
              Effect.RegisterInterfaceGetter jvm appCtx])) ∧
      ((TsnetRegisterAndroidInterface p appCtx).1 = -1 →
        (TsnetRegisterAndroidInterface p appCtx).2 = []) ∧
      ((∃ jvm ctx, Effect.RegisterInterfaceGetter jvm ctx ∈
          (TsnetRegisterAndroidInterface p appCtx).2) ↔
        (TsnetRegisterAndroidInterface p appCtx).1 = 0) ∧
      Join "/data/user/0/com.example.app/cache".toList "ts-logs".toList
        = "/data/user/0/com.example.app/cache/ts-logs".toList ∧
      ∀ comps : List (List Char), comps ≠ [] →
        (∀ l ∈ comps, '/' ∉ l ∧ l ≠ [] ∧ l ≠ ['.'] ∧ l ≠ ['.', '.']) →
        Join ('/' :: joinWith '/' comps) "ts-logs".toList
          = ('/' :: joinWith '/' comps) ++ "/ts-logs".toList := by
  have hsucc : ∀ jvm cacheDir cacheString, p.GetJVM = some jvm →
      p.CallObjectMethod appCtx "getCacheDir".toList = some cacheDir →
      p.CallObjectMethod cacheDir "getAbsolutePath".toList = some cacheString →
      MkdirAll p (Join (p.GoString cacheString) "ts-logs".toList) = true →
      TsnetRegisterAndroidInterface p appCtx
        = (0, [Effect.MkdirAll (Join (p.GoString cacheString) "ts-logs".toList),
            Effect.Setenv "TS_LOGS_DIR".toList (Join (p.GoString cacheString) "ts-logs".toList),
            Effect.RegisterInterfaceGetter jvm appCtx]) := by
    intro jvm cacheDir cacheString h1 h2 h3 h4
    have hnul : (Join (p.GoString cacheString) "ts-logs".toList).contains (Char.ofNat 0)
        = false := by
      unfold MkdirAll at h4
      cases hc : (Join (p.GoString cacheString) "ts-logs".toList).contains (Char.ofNat 0)
      · rfl
      · rw [hc] at h4
        exact absurd h4 (by simp)
    have hset : (Setenv "TS_LOGS_DIR".toList (Join (p.GoString cacheString) "ts-logs".toList) :
        List (Effect J O))
        = [Effect.Setenv "TS_LOGS_DIR".toList (Join (p.GoString cacheString) "ts-logs".toList)] := by
      unfold Setenv
      rw [if_neg]
      rw [hnul]
      decide
    unfold TsnetRegisterAndroidInterface
    simp only [h1, h2, h3, h4, hset]
    rfl
  have hcases : (∃ jvm cacheDir cacheString, p.GetJVM = some jvm ∧
        p.CallObjectMethod appCtx "getCacheDir".toList = some cacheDir ∧
        p.CallObjectMethod cacheDir "getAbsolutePath".toList = some cacheString ∧
        MkdirAll p (Join (p.GoString cacheString) "ts-logs".toList) = true) ∨
      TsnetRegisterAndroidInterface p appCtx = (-1, []) := by
    cases h1 : p.GetJVM with
    | none =>
      right
      unfold TsnetRegisterAndroidInterface
      simp only [h1]
    | some jvm =>
      cases h2 : p.CallObjectMethod appCtx "getCacheDir".toList with
      | none =>
        right
        unfold TsnetRegisterAndroidInterface
        simp only [h1, h2]
      | some cacheDir =>
        cases h3 : p.CallObjectMethod cacheDir "getAbsolutePath".toList with
        | none =>
          right
          unfold TsnetRegisterAndroidInterface
          simp only [h1, h2, h3]
        | some cacheString =>
          cases h4 : MkdirAll p (Join (p.GoString cacheString) "ts-logs".toList) with
          | false =>
            right
            unfold TsnetRegisterAndroidInterface
            simp only [h1, h2, h3, h4]
            rfl
          | true =>
            exact Or.inl ⟨jvm, cacheDir, cacheString, rfl, rfl, h3, h4⟩
  have hfail : (TsnetRegisterAndroidInterface p appCtx).1 = 0 ∨
      TsnetRegisterAndroidInterface p appCtx = (-1, []) := by
    rcases hcases with ⟨jvm, cacheDir, cacheString, h1, h2, h3, h4⟩ | h
    · left; rw [hsucc jvm cacheDir cacheString h1 h2 h3 h4]
    · exact Or.inr h
  have hiff : (TsnetRegisterAndroidInterface p appCtx).1 = 0 ↔
      ∃ jvm cacheDir cacheString, p.GetJVM = some jvm ∧
        p.CallObjectMethod appCtx "getCacheDir".toList = some cacheDir ∧
        p.CallObjectMethod cacheDir "getAbsolutePath".toList = some cacheString ∧
        MkdirAll p (Join (p.GoString cacheString) "ts-logs".toList) = true := by
    constructor
    · intro h0
      rcases hcases with h | h
      · exact h
      · rw [h] at h0
        exact absurd h0 (by simp)
    · rintro ⟨jvm, cacheDir, cacheString, h1, h2, h3, h4⟩
      rw [hsucc jvm cacheDir cacheString h1 h2 h3 h4]
  refine ⟨?_, hiff, hsucc, ?_, ?_, by decide, ?_⟩
  · rcases hfail with h | h
    · exact Or.inl h
    · exact Or.inr (by rw [h])
  · intro hm
    rcases hfail with h | h
    · rw [h] at hm
      exact absurd hm (by decide)
    · rw [h]
  · constructor
    · rintro ⟨jvm, ctx, hmem⟩
      rcases hfail with h | h
      · exact h
      · rw [h] at hmem
        exact absurd hmem (List.not_mem_nil _)
    · intro h0
      obtain ⟨jvm, cacheDir, cacheString, h1, h2, h3, h4⟩ := hiff.1 h0
      refine ⟨jvm, appCtx, ?_⟩
      rw [hsucc jvm cacheDir cacheString h1 h2 h3 h4]
      simp
  · intro comps hne hc
    apply Join_plain comps _ hne
    intro l hl
    rcases List.mem_append.1 hl with h | h
    · exact hc l h
    · rw [List.mem_singleton] at h
      rw [h]
      decide

/-! ## The fields of a header that scans -/

theorem Fields_cons_space (c : Char) (s : List Char) (h : isSpace c = true) :
    Fields (c :: s) = Fields s := by
  simp [Fields, h]

theorem Fields_dropWhile (q : Char → Bool) (s : List Char)
    (hq : ∀ c, q c = true → isSpace c = true) : Fields (s.dropWhile q) = Fields s := by
  induction s with
  | nil => rfl
  | cons c cs ih =>
    by_cases hc : q c = true
    · rw [List.dropWhile_cons_of_pos hc, ih, Fields_cons_space c cs (hq c hc)]
    · rw [List.dropWhile_cons_of_neg hc]

/-- A run of non-space characters that ends at white space or at the end of the text is
the first field. -/
theorem Fields_append (pre rest : List Char) (hne : pre ≠ [])
    (hpre : ∀ c ∈ pre, isSpace c = false) (hrest : ∀ c ∈ rest.head?, isSpace c = true) :
    Fields (pre ++ rest) = pre :: Fields rest := by
  induction pre with
  | nil => exact absurd rfl hne
  | cons c cs ih =>
    have hc : isSpace c = false := hpre c (List.mem_cons_self _ _)
    cases cs with
    | nil =>
      have hall : (rest.head?.all isSpace) = true := by
        cases rest with
        | nil => rfl
        | cons r rs => simpa using hrest r (by simp)
      simp [Fields, hc, hall]
    | cons d ds =>
      have hd : isSpace d = false := hpre d (by simp)
      have := ih (by simp) (fun x hx => hpre x (List.mem_cons_of_mem _ hx))
      rw [List.cons_append] at this ⊢
      rw [Fields]
      simp [hc, hd, this]

theorem Fields_ne_nil (s : List Char) (c : Char) (hm : c ∈ s) (hc : isSpace c = false) :
    Fields s ≠ [] := by
  induction s with
  | nil => exact absurd hm (List.not_mem_nil c)
  | cons x xs ih =>
    by_cases hx : isSpace x = true
    · rw [Fields_cons_space x xs hx]
      rcases List.mem_cons.1 hm with h | h
      · rw [h, hx] at hc
        exact absurd hc (by simp)
      · exact ih h
    · rw [Fields]
      simp only [hx, Bool.false_eq_true, if_false]
      split
      · simp
      · split <;> simp

theorem SkipSpace_some (s t : List Char) (h : SkipSpace s = some t) :
    Fields t = Fields s ∧ ∀ c ∈ t.head?, isSpace c = false := by
  induction s with
  | nil =>
    simp only [SkipSpace, Option.some.injEq] at h
    rw [← h]
    exact ⟨rfl, by simp⟩
  | cons r rest ih =>
    rw [SkipSpace] at h
    split at h
    · rename_i hr
      have hsp : isSpace r = true := by rw [hr.1]; decide
      rw [Fields_cons_space r rest hsp]
      exact ih h
    · split at h
      · contradiction
      · split at h
        · rename_i hns
          simp only [Option.some.injEq] at h
          rw [← h]
          exact ⟨rfl, by simpa using hns⟩
        · rename_i hns
          have hsp : isSpace r = true := by simpa using hns
          rw [Fields_cons_space r rest hsp]
          exact ih h

theorem SkipSpace_idem (s : List Char) (h : ∀ c ∈ s.head?, isSpace c = false) :
    SkipSpace s = some s := by
  cases s with
  | nil => rfl
  | cons c cs => exact SkipSpace_of_not_space c cs (h c (by simp))

theorem advanceSpace_some (s t : List Char) (h : advanceSpace s = some t) :
    Fields t = Fields s ∧ ∀ c ∈ s.head?, isSpace c = true := by
  cases s with
  | nil =>
    simp only [advanceSpace, Option.some.injEq] at h
    rw [← h]
    exact ⟨rfl, by simp⟩
  | cons c rest =>
    simp only [advanceSpace] at h
    split at h
    · contradiction
    · rename_i hsp
      split at h
      · contradiction
      · simp only [Option.some.injEq] at h
        rw [← h]
        refine ⟨Fields_dropWhile _ _ (fun x hx => ?_), by simpa using hsp⟩
        simp only [Bool.and_eq_true] at hx
        exact hx.1

theorem verbThenSpace_some {α : Type} (scanOne : List Char → Option (α × List Char))
    (P : α → List Char → Prop) (hc : Consumes scanOne P) (s : List Char) (a : α)
    (s3 : List Char) (h : verbThenSpace scanOne s = some (a, s3)) :
    ∃ pre, Fields s = pre :: Fields s3 ∧ P a pre := by
  unfold verbThenSpace at h
  cases h1 : SkipSpace s with
  | none => rw [h1] at h; contradiction
  | some s1 =>
    rw [h1] at h
    simp only at h
    cases h2 : scanOne s1 with
    | none => rw [h2] at h; contradiction
    | some r =>
      obtain ⟨a1, s2⟩ := r
      rw [h2] at h
      simp only at h
      cases h3 : advanceSpace s2 with
      | none => rw [h3] at h; contradiction
      | some s3a =>
        rw [h3] at h
        simp only [Option.some.injEq, Prod.mk.injEq] at h
        obtain ⟨rfl, rfl⟩ := h
        obtain ⟨t, pre, ht, rfl, hne, hpre, hP⟩ := hc s1 a1 s2 h2
        obtain ⟨hf1, _⟩ := SkipSpace_some s s1 h1
        obtain ⟨hf2, _⟩ := SkipSpace_some s1 _ ht
        obtain ⟨hf3, hhead⟩ := advanceSpace_some s2 s3a h3
        exact ⟨pre, by rw [← hf1, ← hf2, Fields_append pre s2 hne hpre hhead, hf3], hP⟩

theorem lastVerb_some {α : Type} (scanOne : List Char → Option (α × List Char))
    (P : α → List Char → Prop) (hc : Consumes scanOne P) (s : List Char) (a : α)
    (h : lastVerb scanOne s = some a) : Fields s ≠ [] := by
  unfold lastVerb at h
  cases h1 : SkipSpace s with
  | none => rw [h1] at h; contradiction
  | some s1 =>
    rw [h1] at h
    simp only at h
    cases h2 : scanOne s1 with
    | none => rw [h2] at h; contradiction
    | some r =>
      obtain ⟨a1, s2⟩ := r
      obtain ⟨t, pre, ht, rfl, hne, hpre, _⟩ := hc s1 a1 s2 h2
      obtain ⟨hf1, _⟩ := SkipSpace_some s s1 h1
      obtain ⟨hf2, _⟩ := SkipSpace_some s1 _ ht
      rw [← hf1, ← hf2]
      obtain ⟨c, cs, rfl⟩ : ∃ c cs, pre = c :: cs := by
        cases pre with
        | nil => exact absurd rfl hne
        | cons c cs => exact ⟨c, cs, rfl⟩
      exact Fields_ne_nil _ c (by simp) (hpre c (List.mem_cons_self _ _))

theorem convertString_consumes : Consumes convertString (fun name pre => name = pre) := by
  intro s name s2 h
  cases h1 : SkipSpace s with
  | none => simp [convertString, h1] at h
  | some t =>
    obtain ⟨_, hhead⟩ := SkipSpace_some s t h1
    have hidem := SkipSpace_idem t hhead
    cases t with
    | nil => simp [convertString, h1, notEOF] at h
    | cons c cs =>
      have hc : isSpace c = false := hhead c (by simp)
      simp only [convertString, h1, hidem, notEOF, Option.bind_eq_bind, Option.some_bind,
        bind, pure, reduceCtorEq, if_false, Option.some.injEq, Prod.mk.injEq] at h
      obtain ⟨hn, hs2⟩ := h
      refine ⟨c :: cs, name, rfl, ?_, ?_, ?_, rfl⟩
      · rw [← hn, ← hs2, List.takeWhile_append_dropWhile]
      · rw [← hn]
        simp [List.takeWhile_cons, notSpace, hc]
      · intro x hx
        rw [← hn] at hx
        have := List.mem_takeWhile_imp hx
        simpa [notSpace] using this

theorem isDecimalInt_sign_digits (sign digits : List Char)
    (hs : sign = [] ∨ sign = ['+'] ∨ sign = ['-']) (hne : digits ≠ [])
    (hd : ∀ c ∈ digits, isDecimalDigit c = true) : isDecimalInt (sign ++ digits) = true := by
  have hall : digits.all isDecimalDigit = true := List.all_eq_true.2 hd
  have hemp : digits.isEmpty = false := by
    cases digits with
    | nil => exact absurd rfl hne
    | cons _ _ => rfl
  rcases hs with rfl | rfl | rfl
  · obtain ⟨c, cs, rfl⟩ : ∃ c cs, digits = c :: cs := by
      cases digits with
      | nil => exact absurd rfl hne
      | cons c cs => exact ⟨c, cs, rfl⟩
    have hc := hd c (List.mem_cons_self _ _)
    have h1 := ne_of_isDecimalDigit c '+' hc (by decide)
    have h2 := ne_of_isDecimalDigit c '-' hc (by decide)
    simp only [isDecimalInt, List.nil_append, List.head?_cons, Option.some.injEq, h1, h2,
      or_self, if_false, hall, hemp]
    rfl
  · simp only [isDecimalInt, List.singleton_append, List.head?_cons, true_or, if_true,
      List.tail_cons, hall, hemp]
    rfl
  · simp only [isDecimalInt, List.singleton_append, List.head?_cons, or_true, if_true,
      List.tail_cons, hall, hemp]
    rfl

theorem scanInt_consumes : Consumes scanInt (fun _ pre => isDecimalInt pre = true) := by
  intro s i s2 h
  cases h1 : SkipSpace s with
  | none => simp [scanInt, h1] at h
  | some t =>
    obtain ⟨_, hhead⟩ := SkipSpace_some s t h1
    cases t with
    | nil => simp [scanInt, h1, notEOF] at h
    | cons r rest =>
      have hr : isSpace r = false := hhead r (by simp)
      have hdig : ∀ l : List Char, ∀ c ∈ l.takeWhile isDecimalDigit, isDecimalDigit c = true :=
        fun l c hc => List.mem_takeWhile_imp hc
      by_cases hsign : r = '+' ∨ r = '-'
      · simp only [scanInt, h1, notEOF, Option.bind_eq_bind, Option.some_bind, bind, pure,
          reduceCtorEq, if_false, hsign, if_true] at h
        split at h
        · contradiction
        · split at h
          · contradiction
          · rename_i hne
            cases hp : ParseInt ([r] ++ rest.takeWhile isDecimalDigit) with
            | none => rw [hp] at h; contradiction
            | some v =>
              rw [hp] at h
              simp only [Option.some_bind] at h
              split at h
              · contradiction
              · simp only [Option.some.injEq, Prod.mk.injEq] at h
                refine ⟨r :: rest, [r] ++ rest.takeWhile isDecimalDigit, rfl, ?_, by simp, ?_, ?_⟩
                · rw [← h.2]
                  simp [List.takeWhile_append_dropWhile]
                · intro c hc
                  rcases List.mem_append.1 hc with h3 | h3
                  · rw [List.mem_singleton] at h3
                    rw [h3]
                    exact hr
                  · exact isSpace_of_isDecimalDigit c (hdig rest c h3)
                · apply isDecimalInt_sign_digits _ _ _ hne (hdig rest)
                  rcases hsign with e | e
                  · exact Or.inr (Or.inl (by rw [e]))
                  · exact Or.inr (Or.inr (by rw [e]))
      · simp only [scanInt, h1, notEOF, Option.bind_eq_bind, Option.some_bind, bind, pure,
          reduceCtorEq, if_false, hsign] at h
        split at h
        · contradiction
        · rename_i hne
          cases hp : ParseInt ([] ++ (r :: rest).takeWhile isDecimalDigit) with
          | none => rw [hp] at h; contradiction
          | some v =>
            rw [hp] at h
            simp only [Option.some_bind] at h
            split at h
            · contradiction
            · simp only [Option.some.injEq, Prod.mk.injEq] at h
              refine ⟨r :: rest, (r :: rest).takeWhile isDecimalDigit, rfl, ?_, hne, ?_, ?_⟩
              · rw [← h.2, List.takeWhile_append_dropWhile]
              · intro c hc
                exact isSpace_of_isDecimalDigit c (hdig _ c hc)
              · have := isDecimalInt_sign_digits [] _ (Or.inl rfl) hne (hdig (r :: rest))
                simpa using this

theorem accept_cases (ok s : List Char) :
    (∃ r rest, s = r :: rest ∧ ok.contains r = true ∧ accept ok s = (true, rest)) ∨
      accept ok s = (false, s) := by
  cases s with
  | nil => exact Or.inr rfl
  | cons r rest =>
    by_cases h : ok.contains r = true
    · exact Or.inl ⟨r, rest, rfl, h, by simp only [accept]; rw [if_pos h]⟩
    · exact Or.inr (by simp only [accept]; rw [if_neg h])

theorem contains_pair (x y c : Char) (h : [x, y].contains c = true) : c = x ∨ c = y := by
  simpa using h

theorem scanBool_consumes : Consumes scanBool (fun _ pre => isBoolSpelling pre = true) := by
  intro s b s2 h
  cases h1 : SkipSpace s with
  | none => simp [scanBool, h1] at h
  | some t =>
    obtain ⟨_, hhead⟩ := SkipSpace_some s t h1
    cases t with
    | nil => simp [scanBool, h1, notEOF] at h
    | cons r rest =>
      have hr : isSpace r = false := hhead r (by simp)
      have hone : ∀ x ∈ [r], isSpace x = false := by
        intro x hx
        rw [List.mem_singleton] at hx
        rw [hx]
        exact hr
      simp only [scanBool, h1, notEOF, Option.bind_eq_bind, Option.some_bind, bind, pure,
        reduceCtorEq, if_false] at h
      split at h
      · simp only [Option.some.injEq, Prod.mk.injEq] at h
        exact ⟨r :: rest, [r], rfl, by rw [← h.2]; rfl, by simp, hone, rfl⟩
      · split at h
        · simp only [Option.some.injEq, Prod.mk.injEq] at h
          exact ⟨r :: rest, [r], rfl, by rw [← h.2]; rfl, by simp, hone, rfl⟩
        · split at h
          · rename_i ht
            rcases accept_cases ['r', 'R'] rest with ⟨r1, rest1, rfl, hr1, ha1⟩ | ha1
            · rw [ha1] at h
              simp only [if_true] at h
              rcases accept_cases ['u', 'U'] rest1 with ⟨r2, rest2, rfl, hr2, ha2⟩ | ha2
              · rw [ha2] at h
                simp only [Bool.not_true, Bool.false_eq_true, if_false] at h
                rcases accept_cases ['e', 'E'] rest2 with ⟨r3, rest3, rfl, hr3, ha3⟩ | ha3
                · rw [ha3] at h
                  simp only [Bool.not_true, Bool.false_eq_true, if_false, Option.some.injEq,
                    Prod.mk.injEq] at h
                  refine ⟨_, [r, r1, r2, r3], rfl, by rw [← h.2]; rfl, by simp, ?_, ?_⟩
                  · rcases ht with rfl | rfl <;>
                      rcases contains_pair _ _ _ hr1 with rfl | rfl <;>
                      rcases contains_pair _ _ _ hr2 with rfl | rfl <;>
                      rcases contains_pair _ _ _ hr3 with rfl | rfl <;> decide
                  · rcases ht with rfl | rfl <;>
                      rcases contains_pair _ _ _ hr1 with rfl | rfl <;>
                      rcases contains_pair _ _ _ hr2 with rfl | rfl <;>
                      rcases contains_pair _ _ _ hr3 with rfl | rfl <;> decide
                · rw [ha3] at h
                  simp at h
              · rw [ha2] at h
                simp at h
            · rw [ha1] at h
              simp only [Bool.false_eq_true, if_false, Option.some.injEq, Prod.mk.injEq] at h
              exact ⟨r :: rest, [r], rfl, by rw [← h.2]; rfl, by simp, hone, rfl⟩
          · split at h
            · rename_i hf
              rcases accept_cases ['a', 'A'] rest with ⟨r1, rest1, rfl, hr1, ha1⟩ | ha1
              · rw [ha1] at h
                simp only [if_true] at h
                rcases accept_cases ['l', 'L'] rest1 with ⟨r2, rest2, rfl, hr2, ha2⟩ | ha2
                · rw [ha2] at h
                  simp only [Bool.not_true, Bool.false_eq_true, if_false] at h
                  rcases accept_cases ['s', 'S'] rest2 with ⟨r3, rest3, rfl, hr3, ha3⟩ | ha3
                  · rw [ha3] at h
                    simp only [Bool.not_true, Bool.false_eq_true, if_false] at h
                    rcases accept_cases ['e', 'E'] rest3 with ⟨r4, rest4, rfl, hr4, ha4⟩ | ha4
                    · rw [ha4] at h
                      simp only [Bool.not_true, Bool.false_eq_true, if_false,
                        Option.some.injEq, Prod.mk.injEq] at h
                      refine ⟨_, [r, r1, r2, r3, r4], rfl, by rw [← h.2]; rfl, by simp, ?_, ?_⟩
                      · rcases hf with rfl | rfl <;>
                          rcases contains_pair _ _ _ hr1 with rfl | rfl <;>
                          rcases contains_pair _ _ _ hr2 with rfl | rfl <;>
                          rcases contains_pair _ _ _ hr3 with rfl | rfl <;>
                          rcases contains_pair _ _ _ hr4 with rfl | rfl <;> decide
                      · rcases hf with rfl | rfl <;>
                          rcases contains_pair _ _ _ hr1 with rfl | rfl <;>
                          rcases contains_pair _ _ _ hr2 with rfl | rfl <;>
                          rcases contains_pair _ _ _ hr3 with rfl | rfl <;>
                          rcases contains_pair _ _ _ hr4 with rfl | rfl <;> decide
                    · rw [ha4] at h
                      simp at h
                  · rw [ha3] at h
                    simp at h
                · rw [ha2] at h
                  simp at h
              · rw [ha1] at h
                simp only [Bool.false_eq_true, if_false, Option.some.injEq, Prod.mk.injEq] at h
                exact ⟨r :: rest, [r], rfl, by rw [← h.2]; rfl, by simp, hone, rfl⟩
            · simp only [Option.some.injEq, Prod.mk.injEq] at h
              exact ⟨r :: rest, [r], rfl, by rw [← h.2]; rfl, by simp, hone, rfl⟩

theorem scanFlags_some (s : List Char) (f : Bool × Bool × Bool × Bool × Bool)
    (h : scanFlags s = some f) :
    ∃ f4 f5 f6 f7 rest, Fields s = f4 :: f5 :: f6 :: f7 :: rest ∧ rest ≠ [] ∧
      isBoolSpelling f4 = true ∧ isBoolSpelling f5 = true ∧ isBoolSpelling f6 = true ∧
      isBoolSpelling f7 = true := by
  unfold scanFlags at h
  cases h1 : verbThenSpace scanBool s with
  | none => rw [h1] at h; contradiction
  | some r1 =>
    obtain ⟨a1, s1⟩ := r1
    rw [h1] at h
    simp only [Option.some_bind] at h
    cases h2 : verbThenSpace scanBool s1 with
    | none => rw [h2] at h; contradiction
    | some r2 =>
      obtain ⟨a2, s2⟩ := r2
      rw [h2] at h
      simp only [Option.some_bind] at h
      cases h3 : verbThenSpace scanBool s2 with
      | none => rw [h3] at h; contradiction
      | some r3 =>
        obtain ⟨a3, s3⟩ := r3
        rw [h3] at h
        simp only [Option.some_bind] at h
        cases h4 : verbThenSpace scanBool s3 with
        | none => rw [h4] at h; contradiction
        | some r4 =>
          obtain ⟨a4, s4⟩ := r4
          rw [h4] at h
          simp only [Option.some_bind] at h
          cases h5 : lastVerb scanBool s4 with
          | none => rw [h5] at h; contradiction
          | some a5 =>
            obtain ⟨f4, e1, p1⟩ := verbThenSpace_some _ _ scanBool_consumes s a1 s1 h1
            obtain ⟨f5, e2, p2⟩ := verbThenSpace_some _ _ scanBool_consumes s1 a2 s2 h2
            obtain ⟨f6, e3, p3⟩ := verbThenSpace_some _ _ scanBool_consumes s2 a3 s3 h3
            obtain ⟨f7, e4, p4⟩ := verbThenSpace_some _ _ scanBool_consumes s3 a4 s4 h4
            have e5 := lastVerb_some _ _ scanBool_consumes s4 a5 h5
            exact ⟨f4, f5, f6, f7, Fields s4, by rw [e1, e2, e3, e4], e5, p1, p2, p3, p4⟩

/-- A header that `Sscanf` accepts has at least eight fields: the name, two decimal
integers, four flag texts that are read whole, and at least one more field. -/
theorem Sscanf_some_fields (s : List Char) (h : Header) (hs : Sscanf s = some h) :
    ∃ f2 f3 f4 f5 f6 f7 rest,
      Fields s = h.name :: f2 :: f3 :: f4 :: f5 :: f6 :: f7 :: rest ∧ rest ≠ [] ∧
      isDecimalInt f2 = true ∧ isDecimalInt f3 = true ∧ isBoolSpelling f4 = true ∧
      isBoolSpelling f5 = true ∧ isBoolSpelling f6 = true ∧ isBoolSpelling f7 = true := by
  unfold Sscanf at hs
  cases h1 : verbThenSpace convertString s with
  | none => rw [h1] at hs; contradiction
  | some r1 =>
    obtain ⟨name, s1⟩ := r1
    rw [h1] at hs
    simp only [Option.some_bind] at hs
    cases h2 : verbThenSpace scanInt s1 with
    | none => rw [h2] at hs; contradiction
    | some r2 =>
      obtain ⟨index, s2⟩ := r2
      rw [h2] at hs
      simp only [Option.some_bind] at hs
      cases h3 : verbThenSpace scanInt s2 with
      | none => rw [h3] at hs; contradiction
      | some r3 =>
        obtain ⟨mtu, s3⟩ := r3
        rw [h3] at hs
        simp only [Option.some_bind] at hs
        cases h4 : scanFlags s3 with
        | none => rw [h4] at hs; contradiction
        | some f =>
          rw [h4] at hs
          simp only [Option.map_some', Option.some.injEq] at hs
          obtain ⟨f1, e1, p1⟩ := verbThenSpace_some _ _ convertString_consumes s name s1 h1
          obtain ⟨f2, e2, p2⟩ := verbThenSpace_some _ _ scanInt_consumes s1 index s2 h2
          obtain ⟨f3, e3, p3⟩ := verbThenSpace_some _ _ scanInt_consumes s2 mtu s3 h3
          obtain ⟨f4, f5, f6, f7, rest, e4, hne, q4, q5, q6, q7⟩ := scanFlags_some s3 f h4
          refine ⟨f2, f3, f4, f5, f6, f7, rest, ?_, hne, p2, p3, q4, q5, q6, q7⟩
          rw [e1, e2, e3, e4, ← hs, ← p1]

theorem parseLine_of_scan_none (l header part : List Char) (hs : Split '|' l = [header, part])
    (hn : Sscanf header = none) : parseLine l = none := by
  cases hp : parseLine l with
  | none => rfl
  | some r =>
    obtain ⟨_, header1, part1, h, hs1, hsc, _⟩ := (parseLine_eq_some l r).1 hp
    rw [hs] at hs1
    simp only [List.cons.injEq, and_true] at hs1
    rw [← hs1.1, hn] at hsc
    contradiction

/-- C12 as stated fails: a header with nine fields is scanned from its first eight, and
the line yields a record. -/
theorem header_with_extra_field_accepted :
    Split '|' "wlan0 30 1500 true true false false true extra | 10.1.10.131/24".toList
        = ["wlan0 30 1500 true true false false true extra ".toList,
            " 10.1.10.131/24".toList] ∧
      (Fields "wlan0 30 1500 true true false false true extra ".toList).length = 9 ∧
      parseLine "wlan0 30 1500 true true false false true extra | 10.1.10.131/24".toList
        = some ⟨"wlan0".toList, 30, 1500, 19, some [⟨[10, 1, 10, 131], []⟩]⟩ := by
  decide

/-- C12 (amended): a line whose header part, the text before the single `|`, has fewer
than eight whitespace-delimited fields is skipped and yields no record. -/
theorem header_with_missing_field_skipped (l header part : List Char)
    (hs : Split '|' l = [header, part]) (hlt : (Fields header).length < 8) :
    parseLine l = none ∧ Sscanf header = none := by
  have hn : Sscanf header = none := by
    cases hsc : Sscanf header with
    | none => rfl
    | some h =>
      obtain ⟨f2, f3, f4, f5, f6, f7, rest, e, hne, _⟩ := Sscanf_some_fields header h hsc
      rw [e] at hlt
      cases rest with
      | nil => exact absurd rfl hne
      | cons x xs =>
        simp only [List.length_cons] at hlt
        omega
  exact ⟨parseLine_of_scan_none l header part hs hn, hn⟩

theorem header_with_missing_field_skipped_witness :
    Split '|' "wlan0 30 1500 true true false false | 10.1.10.131/24".toList
        = ["wlan0 30 1500 true true false false ".toList, " 10.1.10.131/24".toList] ∧
      (Fields "wlan0 30 1500 true true false false ".toList).length < 8 ∧
      parseLine "wlan0 30 1500 true true false false | 10.1.10.131/24".toList = none :=
  ⟨by decide, by decide,
    (header_with_missing_field_skipped
      "wlan0 30 1500 true true false false | 10.1.10.131/24".toList
      "wlan0 30 1500 true true false false ".toList " 10.1.10.131/24".toList (by decide)
      (by decide)).1⟩

/-! ## The last flag field -/

theorem accept_cases_head (ok s : List Char) :
    (∃ r rest, s = r :: rest ∧ ok.contains r = true ∧ accept ok s = (true, rest)) ∨
      (accept ok s = (false, s) ∧ ∀ c ∈ s.head?, ok.contains c = false) := by
  cases s with
  | nil => exact Or.inr ⟨rfl, by simp⟩
  | cons r rest =>
    by_cases h : ok.contains r = true
    · exact Or.inl ⟨r, rest, rfl, h, by simp only [accept]; rw [if_pos h]⟩
    · refine Or.inr ⟨by simp only [accept]; rw [if_neg h], ?_⟩
      intro c hc
      rw [List.head?_cons, Option.mem_def, Option.some.injEq] at hc
      rw [← hc]
      simpa using h

theorem head_takeWhile (p : Char → Bool) (l : List Char) (x : Char) (xs : List Char)
    (h : l.takeWhile p = x :: xs) : l.head? = some x := by
  cases l with
  | nil => simp at h
  | cons c cs =>
    rw [List.takeWhile_cons] at h
    split at h
    · simp only [List.cons.injEq] at h
      rw [h.1]
      rfl
    · contradiction

theorem boolPrefixReads_other (r : Char) (more : List Char) (hnt : ¬ (r = 't' ∨ r = 'T'))
    (hnf : ¬ (r = 'f' ∨ r = 'F')) : boolPrefixReads (r :: more) = true := by
  cases more <;> simp [boolPrefixReads, hnt, hnf]

theorem scanBool_start (r : Char) (rest : List Char) (hr : isSpace r = false) (b : Bool)
    (s2 : List Char) (h : scanBool (r :: rest) = some (b, s2)) :
    boolPrefixReads (r :: rest.takeWhile notSpace) = true := by
  have h1 := SkipSpace_of_not_space r rest hr
  simp only [scanBool, h1, notEOF, Option.bind_eq_bind, Option.some_bind, bind, pure,
    reduceCtorEq, if_false] at h
  split at h
  · rename_i h0
    exact boolPrefixReads_other r _ (by rw [h0]; decide) (by rw [h0]; decide)
  · split at h
    · rename_i _ h0
      exact boolPrefixReads_other r _ (by rw [h0]; decide) (by rw [h0]; decide)
    · split at h
      · rename_i ht
        have hnf : ¬ (r = 'f' ∨ r = 'F') := by rcases ht with rfl | rfl <;> decide
        rcases accept_cases_head ['r', 'R'] rest with ⟨r1, rest1, rfl, hr1, ha1⟩ | ⟨ha1, hh1⟩
        · rw [ha1] at h
          simp only [if_true] at h
          rcases accept_cases_head ['u', 'U'] rest1 with ⟨r2, rest2, rfl, hr2, ha2⟩ | ⟨ha2, _⟩
          · rw [ha2] at h
            simp only [Bool.not_true, Bool.false_eq_true, if_false] at h
            rcases accept_cases_head ['e', 'E'] rest2 with ⟨r3, rest3, rfl, hr3, ha3⟩ | ⟨ha3, _⟩
            · have e1 := contains_pair _ _ _ hr1
              have e2 := contains_pair _ _ _ hr2
              have e3 := contains_pair _ _ _ hr3
              have n1 : notSpace r1 = true := by rcases e1 with rfl | rfl <;> decide
              have n2 : notSpace r2 = true := by rcases e2 with rfl | rfl <;> decide
              have n3 : notSpace r3 = true := by rcases e3 with rfl | rfl <;> decide
              simp only [List.takeWhile_cons, n1, n2, n3, if_true]
              simp [boolPrefixReads, ht, e1, e2, e3]
            · rw [ha3] at h
              simp at h
          · rw [ha2] at h
            simp at h
        · cases hm : rest.takeWhile notSpace with
          | nil => rfl
          | cons c cs =>
            have hc := hh1 c (by rw [head_takeWhile _ _ _ _ hm]; rfl)
            have hc1 : c ≠ 'r' := fun e => by rw [e] at hc; exact absurd hc (by decide)
            have hc2 : c ≠ 'R' := fun e => by rw [e] at hc; exact absurd hc (by decide)
            simp [boolPrefixReads, hc1, hc2, hnf]
      · rename_i hnt
        split at h
        · rename_i hf
          rcases accept_cases_head ['a', 'A'] rest with ⟨r1, rest1, rfl, hr1, ha1⟩ | ⟨ha1, hh1⟩
          · rw [ha1] at h
            simp only [if_true] at h
            rcases accept_cases_head ['l', 'L'] rest1 with ⟨r2, rest2, rfl, hr2, ha2⟩ | ⟨ha2, _⟩
            · rw [ha2] at h
              simp only [Bool.not_true, Bool.false_eq_true, if_false] at h
              rcases accept_cases_head ['s', 'S'] rest2 with
                ⟨r3, rest3, rfl, hr3, ha3⟩ | ⟨ha3, _⟩
              · rw [ha3] at h
                simp only [Bool.not_true, Bool.false_eq_true, if_false] at h
                rcases accept_cases_head ['e', 'E'] rest3 with
                  ⟨r4, rest4, rfl, hr4, ha4⟩ | ⟨ha4, _⟩
                · have e1 := contains_pair _ _ _ hr1
                  have e2 := contains_pair _ _ _ hr2
                  have e3 := contains_pair _ _ _ hr3
                  have e4 := contains_pair _ _ _ hr4
                  have n1 : notSpace r1 = true := by rcases e1 with rfl | rfl <;> decide
                  have n2 : notSpace r2 = true := by rcases e2 with rfl | rfl <;> decide
                  have n3 : notSpace r3 = true := by rcases e3 with rfl | rfl <;> decide
                  have n4 : notSpace r4 = true := by rcases e4 with rfl | rfl <;> decide
                  simp only [List.takeWhile_cons, n1, n2, n3, n4, if_true]
                  simp [boolPrefixReads, hnt, hf, e1, e2, e3, e4]
                · rw [ha4] at h
                  simp at h
              · rw [ha3] at h
                simp at h
            · rw [ha2] at h
              simp at h
          · cases hm : rest.takeWhile notSpace with
            | nil => rfl
            | cons c cs =>
              have hc := hh1 c (by rw [head_takeWhile _ _ _ _ hm]; rfl)
              have hc1 : c ≠ 'a' := fun e => by rw [e] at hc; exact absurd hc (by decide)
              have hc2 : c ≠ 'A' := fun e => by rw [e] at hc; exact absurd hc (by decide)
              simp [boolPrefixReads, hc1, hc2, hnt]
        · rename_i hnf
          exact boolPrefixReads_other r _ hnt hnf

theorem head_dropWhile_notSpace (l : List Char) :
    ∀ c ∈ (l.dropWhile notSpace).head?, isSpace c = true := by
  induction l with
  | nil => simp
  | cons x xs ih =>
    by_cases hx : notSpace x = true
    · rw [List.dropWhile_cons_of_pos hx]
      exact ih
    · rw [List.dropWhile_cons_of_neg hx]
      intro c hc
      rw [List.head?_cons, Option.mem_def, Option.some.injEq] at hc
      rw [← hc]
      simpa [notSpace] using hx

/-- When the last verb `%t` succeeds, the input it starts in has a first field, and a
boolean is read at the start of that field. -/
theorem lastVerb_scanBool_field (s : List Char) (b : Bool)
    (h : lastVerb scanBool s = some b) :
    ∃ f rest, Fields s = f :: rest ∧ boolPrefixReads f = true := by
  unfold lastVerb at h
  cases h1 : SkipSpace s with
  | none => rw [h1] at h; contradiction
  | some s1 =>
    rw [h1] at h
    simp only at h
    cases h2 : scanBool s1 with
    | none => rw [h2] at h; contradiction
    | some r2 =>
      obtain ⟨a, s2⟩ := r2
      obtain ⟨hf1, hhead⟩ := SkipSpace_some s s1 h1
      cases s1 with
      | nil => simp [scanBool, SkipSpace, notEOF] at h2
      | cons r rest =>
        have hr : isSpace r = false := hhead r (by simp)
        have hsplit : r :: rest
            = (r :: rest.takeWhile notSpace) ++ rest.dropWhile notSpace := by
          rw [List.cons_append, List.takeWhile_append_dropWhile]
        have hpre : ∀ c ∈ r :: rest.takeWhile notSpace, isSpace c = false := by
          intro c hc
          rcases List.mem_cons.1 hc with e | e
          · rw [e]; exact hr
          · simpa [notSpace] using List.mem_takeWhile_imp e
        refine ⟨r :: rest.takeWhile notSpace, Fields (rest.dropWhile notSpace), ?_,
          scanBool_start r rest hr a s2 h2⟩
        rw [← hf1, hsplit, Fields_append _ _ (by simp) hpre (head_dropWhile_notSpace rest)]

theorem scanFlags_some_all (s : List Char) (f : Bool × Bool × Bool × Bool × Bool)
    (h : scanFlags s = some f) :
    ∃ f4 f5 f6 f7 f8 rest, Fields s = f4 :: f5 :: f6 :: f7 :: f8 :: rest ∧
      isBoolSpelling f4 = true ∧ isBoolSpelling f5 = true ∧ isBoolSpelling f6 = true ∧
      isBoolSpelling f7 = true ∧ boolPrefixReads f8 = true := by
  unfold scanFlags at h
  cases h1 : verbThenSpace scanBool s with
  | none => rw [h1] at h; contradiction
  | some r1 =>
    obtain ⟨a1, s1⟩ := r1
    rw [h1] at h
    simp only [Option.some_bind] at h
    cases h2 : verbThenSpace scanBool s1 with
    | none => rw [h2] at h; contradiction
    | some r2 =>
      obtain ⟨a2, s2⟩ := r2
      rw [h2] at h
      simp only [Option.some_bind] at h
      cases h3 : verbThenSpace scanBool s2 with
      | none => rw [h3] at h; contradiction
      | some r3 =>
        obtain ⟨a3, s3⟩ := r3
        rw [h3] at h
        simp only [Option.some_bind] at h
        cases h4 : verbThenSpace scanBool s3 with
        | none => rw [h4] at h; contradiction
        | some r4 =>
          obtain ⟨a4, s4⟩ := r4
          rw [h4] at h
          simp only [Option.some_bind] at h
          cases h5 : lastVerb scanBool s4 with
          | none => rw [h5] at h; contradiction
          | some a5 =>
            obtain ⟨f4, e1, p1⟩ := verbThenSpace_some _ _ scanBool_consumes s a1 s1 h1
            obtain ⟨f5, e2, p2⟩ := verbThenSpace_some _ _ scanBool_consumes s1 a2 s2 h2
            obtain ⟨f6, e3, p3⟩ := verbThenSpace_some _ _ scanBool_consumes s2 a3 s3 h3
            obtain ⟨f7, e4, p4⟩ := verbThenSpace_some _ _ scanBool_consumes s3 a4 s4 h4
            obtain ⟨f8, rest, e5, p5⟩ := lastVerb_scanBool_field s4 a5 h5
            exact ⟨f4, f5, f6, f7, f8, rest, by rw [e1, e2, e3, e4, e5], p1, p2, p3, p4, p5⟩

/-- A header that `Sscanf` accepts: its first eight fields are the name, two decimal
integers, four flag texts that are read whole, and a field at whose start a boolean is
read. -/
theorem Sscanf_some_all_fields (s : List Char) (h : Header) (hs : Sscanf s = some h) :
    ∃ f2 f3 f4 f5 f6 f7 f8 rest,
      Fields s = h.name :: f2 :: f3 :: f4 :: f5 :: f6 :: f7 :: f8 :: rest ∧
      isDecimalInt f2 = true ∧ isDecimalInt f3 = true ∧ isBoolSpelling f4 = true ∧
      isBoolSpelling f5 = true ∧ isBoolSpelling f6 = true ∧ isBoolSpelling f7 = true ∧
      boolPrefixReads f8 = true := by
  unfold Sscanf at hs
  cases h1 : verbThenSpace convertString s with
  | none => rw [h1] at hs; contradiction
  | some r1 =>
    obtain ⟨name, s1⟩ := r1
    rw [h1] at hs
    simp only [Option.some_bind] at hs
    cases h2 : verbThenSpace scanInt s1 with
    | none => rw [h2] at hs; contradiction
    | some r2 =>
      obtain ⟨index, s2⟩ := r2
      rw [h2] at hs
      simp only [Option.some_bind] at hs
      cases h3 : verbThenSpace scanInt s2 with
      | none => rw [h3] at hs; contradiction
      | some r3 =>
        obtain ⟨mtu, s3⟩ := r3
        rw [h3] at hs
        simp only [Option.some_bind] at hs
        cases h4 : scanFlags s3 with
        | none => rw [h4] at hs; contradiction
        | some f =>
          rw [h4] at hs
          simp only [Option.map_some', Option.some.injEq] at hs
          obtain ⟨f1, e1, p1⟩ := verbThenSpace_some _ _ convertString_consumes s name s1 h1
          obtain ⟨f2, e2, p2⟩ := verbThenSpace_some _ _ scanInt_consumes s1 index s2 h2
          obtain ⟨f3, e3, p3⟩ := verbThenSpace_some _ _ scanInt_consumes s2 mtu s3 h3
          obtain ⟨f4, f5, f6, f7, f8, rest, e4, q4, q5, q6, q7, q8⟩ :=
            scanFlags_some_all s3 f h4
          refine ⟨f2, f3, f4, f5, f6, f7, f8, rest, ?_, p2, p3, q4, q5, q6, q7, q8⟩
          rw [e1, e2, e3, e4, ← hs, ← p1]

/-- C13 as stated fails: with eight fields, flag fields other than the literal `true` and
`false` are accepted: `1` and `T` read as true, `0`, `F` and `x` as false. -/
theorem flag_fields_other_than_literals_accepted :
    Fields "wlan0 30 1500 1 0 T F x ".toList
        = ["wlan0".toList, "30".toList, "1500".toList, "1".toList, "0".toList, "T".toList,
            "F".toList, "x".toList] ∧
      parseLine "wlan0 30 1500 1 0 T F x | 10.1.10.131/24".toList
        = some ⟨"wlan0".toList, 30, 1500, FlagUp ||| FlagLoopback,
            some [⟨[10, 1, 10, 131], []⟩]⟩ := by
  decide

/-- C13 (amended): for a line whose header part has exactly eight whitespace-delimited
fields, the line is skipped and yields no record if the index or the mtu field is not a
decimal integer (an optional sign, then digits), or one of the flag fields up, broadcast,
loopback, pointToPoint is neither a single character nor `true` or `false` in some letter
case, or the last flag field, multicast, begins with `tr` without going on to spell `true`
or with `fa` without going on to spell `false` (letters in either case). -/
theorem bad_integer_or_flag_field_skipped (l header part : List Char)
    (f1 f2 f3 f4 f5 f6 f7 f8 : List Char) (hs : Split '|' l = [header, part])
    (hf : Fields header = [f1, f2, f3, f4, f5, f6, f7, f8])
    (hbad : isDecimalInt f2 = false ∨ isDecimalInt f3 = false ∨ isBoolSpelling f4 = false ∨
      isBoolSpelling f5 = false ∨ isBoolSpelling f6 = false ∨ isBoolSpelling f7 = false ∨
      boolPrefixReads f8 = false) :
    parseLine l = none ∧ Sscanf header = none := by
  have hn : Sscanf header = none := by
    cases hsc : Sscanf header with
    | none => rfl
    | some h =>
      obtain ⟨g2, g3, g4, g5, g6, g7, g8, rest, e, p2, p3, p4, p5, p6, p7, p8⟩ :=
        Sscanf_some_all_fields header h hsc
      rw [hf] at e
      simp only [List.cons.injEq] at e
      obtain ⟨_, e2, e3, e4, e5, e6, e7, e8, _⟩ := e
      rw [← e2] at p2
      rw [← e3] at p3
      rw [← e4] at p4
      rw [← e5] at p5
      rw [← e6] at p6
      rw [← e7] at p7
      rw [← e8] at p8
      rcases hbad with hb | hb | hb | hb | hb | hb | hb
      · rw [p2] at hb; contradiction
      · rw [p3] at hb; contradiction
      · rw [p4] at hb; contradiction
      · rw [p5] at hb; contradiction
      · rw [p6] at hb; contradiction
      · rw [p7] at hb; contradiction
      · rw [p8] at hb; contradiction
  exact ⟨parseLine_of_scan_none l header part hs hn, hn⟩

theorem bad_integer_or_flag_field_skipped_witness :
    Fields "wlan0 30 15x0 true true false false true ".toList
        = ["wlan0".toList, "30".toList, "15x0".toList, "true".toList, "true".toList,
            "false".toList, "false".toList, "true".toList] ∧
      isDecimalInt "15x0".toList = false ∧ isBoolSpelling "yes".toList = false ∧
      boolPrefixReads "tRx".toList = false ∧ boolPrefixReads "tru".toList = false ∧
      boolPrefixReads "fa".toList = false ∧
      parseLine "wlan0 30 15x0 true true false false true | 10.1.10.131/24".toList = none ∧
      parseLine "wlan0 30 1500 true yes false false true | 10.1.10.131/24".toList = none ∧
      parseLine "wlan0 30 1500 true true false false tRx | 10.1.10.131/24".toList = none ∧
      parseLine "wlan0 30 1500 true true false false fa | 10.1.10.131/24".toList = none :=
  ⟨by decide, by decide, by decide, by decide, by decide, by decide,
    (bad_integer_or_flag_field_skipped
      "wlan0 30 15x0 true true false false true | 10.1.10.131/24".toList
      "wlan0 30 15x0 true true false false true ".toList " 10.1.10.131/24".toList
      "wlan0".toList "30".toList "15x0".toList "true".toList "true".toList "false".toList
      "false".toList "true".toList (by decide) (by decide) (Or.inr (Or.inl (by decide)))).1,
    (bad_integer_or_flag_field_skipped
      "wlan0 30 1500 true yes false false true | 10.1.10.131/24".toList
      "wlan0 30 1500 true yes false false true ".toList " 10.1.10.131/24".toList
      "wlan0".toList "30".toList "1500".toList "true".toList "yes".toList "false".toList
      "false".toList "true".toList (by decide) (by decide)
      (Or.inr (Or.inr (Or.inr (Or.inl (by decide)))))).1,
    (bad_integer_or_flag_field_skipped
      "wlan0 30 1500 true true false false tRx | 10.1.10.131/24".toList
      "wlan0 30 1500 true true false false tRx ".toList " 10.1.10.131/24".toList
      "wlan0".toList "30".toList "1500".toList "true".toList "true".toList "false".toList
      "false".toList "tRx".toList (by decide) (by decide)
      (Or.inr (Or.inr (Or.inr (Or.inr (Or.inr (Or.inr (by decide)))))))).1,
    (bad_integer_or_flag_field_skipped
      "wlan0 30 1500 true true false false fa | 10.1.10.131/24".toList
      "wlan0 30 1500 true true false false fa ".toList " 10.1.10.131/24".toList
      "wlan0".toList "30".toList "1500".toList "true".toList "true".toList "false".toList
      "false".toList "fa".toList (by decide) (by decide)
      (Or.inr (Or.inr (Or.inr (Or.inr (Or.inr (Or.inr (by decide)))))))).1⟩

end LibTailscale
